import Mathlib

/-!
Verification of `hashmap<Type, Hasher>` (src/hashmap.h)

A shallow embedding of the chained-bucket frequency table of `src/hashmap.h`
and theorems about it.

Modelling conventions.

* `std::vector<std::forward_list<std::pair<Type, size_t>>>` is a list of chains, a chain
  being a list of `(key, count)` pairs with the head of the `forward_list` first.
* The stored counts are `size_t` values: `++v_` is addition modulo `SIZE_MOD = 2 ^ 64`
  (an LP64 / LLP64 platform), and `unsigned` is 32 bits wide (`UNSIGNED_MOD = 2 ^ 32`).
* `size_` counts nodes that are live in memory at the same time.  Every node has its own
  address, so fewer than `2 ^ 64` of them exist and `++size_` cannot wrap; it is modelled
  as `+ 1` on `Nat`.  `--size_` wraps at zero as in C++.
* `buckets_[idx]` is read with `List.getD` and written with `List.set`.  With at least one
  bucket `index` is always in range; with no bucket at all the C++ code divides by zero,
  which is undefined, and the value of `index` and `has` there carries no meaning:
  `index_checked` and `has_checked` give `none` in that case.
* Exceptions are the `Except` error values of `Err`; undefined behaviour of a library
  call is `none`.
* The loops of `read` take a bound `fuel` on the tests of their condition: a call that has
  not returned within the bound gives `none`, and a call that never returns gives `none`
  for every bound.
-/

namespace Hashmap

/-- Number of values of a `size_t`. -/
def SIZE_MOD : Nat := 2 ^ 64

/-- Number of values of an `unsigned`. -/
def UNSIGNED_MOD : Nat := 2 ^ 32

/-- The exceptions thrown by the class. -/
inductive Err where
  /-- `std::logic_error("Container are empty.")` thrown by `extr`. -/
  | logic_error
  /-- `std::invalid_argument("Key doesn't exists.")` thrown by `operator[]`. -/
  | invalid_argument
  deriving DecidableEq, Repr

/-- One `std::forward_list<std::pair<Type, size_t>>`, head first. -/
abbrev Chain (K : Type) := List (K × Nat)

/-- The data members of `hashmap<Type, Hasher>`. -/
structure hashmap (K : Type) where
  /-- The member `hasher_`. -/
  hasher_ : K → Nat
  /-- The member `buckets_`. -/
  buckets_ : List (Chain K)
  /-- The member `size_`. -/
  size_ : Nat

set_option linter.unusedSectionVars false
set_option linter.unusedVariables false

variable {K : Type} [DecidableEq K]

/-- The constructor `hashmap(Hasher h_, size_t num_buckets_)`: `num_buckets_` empty chains,
`size_` zero. -/
def mk (h : K → Nat) (num_buckets : Nat) : hashmap K :=
  { hasher_ := h, buckets_ := List.replicate num_buckets [], size_ := 0 }

/-- The method `index`: `hasher_(key) % buckets_.size()`, for a table with at least one
bucket.  With no bucket the C++ expression divides by zero; `index_checked` keeps that
case apart. -/
def index (t : hashmap K) (key : K) : Nat :=
  t.hasher_ key % t.buckets_.length

/-- The method `index` on every table: `hasher_(key) % buckets_.size()` is undefined
(`none`) when `buckets_.size()` is zero, the remainder otherwise. -/
def index_checked (t : hashmap K) (key : K) : Option Nat :=
  if t.buckets_.length = 0 then none else some (t.hasher_ key % t.buckets_.length)

/-- The chain `buckets_[idx]`. -/
def bucket (t : hashmap K) (idx : Nat) : Chain K :=
  t.buckets_.getD idx []

/-- The loop of `inc` on one chain: the first entry whose key equals `key` gets `++v_`
and the result is `true`; `false` with the chain unchanged when no entry matches. -/
def incChain (key : K) : Chain K → Bool × Chain K
  | [] => (false, [])
  | (k, v) :: rest =>
    if k = key then (true, (k, (v + 1) % SIZE_MOD) :: rest)
    else
      let r := incChain key rest
      (r.1, (k, v) :: r.2)

/-- The method `inc(idx, key)`: runs the loop on `buckets_[idx]`. -/
def inc (t : hashmap K) (idx : Nat) (key : K) : Bool × hashmap K :=
  let r := incChain key (bucket t idx)
  (r.1, { t with buckets_ := t.buckets_.set idx r.2 })

/-- The method `clear`: the same number of buckets, all empty, `size_ = 0`. -/
def clear (t : hashmap K) : hashmap K :=
  { t with buckets_ := List.replicate t.buckets_.length [], size_ := 0 }

/-- The method `size`. -/
def size (t : hashmap K) : Nat := t.size_

/-- The method `empty`. -/
def empty (t : hashmap K) : Bool := decide (t.size_ = 0)

/-- The method `has`: `std::any_of` over `buckets_[index(key)]`, for a table with at
least one bucket. -/
def has (t : hashmap K) (key : K) : Bool :=
  (bucket t (index t key)).any (fun x => decide (x.1 = key))

/-- The method `has` on every table: undefined (`none`) when `index(key)` is, otherwise
`std::any_of` over `buckets_[idx]`. -/
def has_checked (t : hashmap K) (key : K) : Option Bool :=
  match index_checked t key with
  | none => none
  | some idx => some ((bucket t idx).any (fun x => decide (x.1 = key)))

/-- The method `operator<<`: increments the entry of `key` when `inc` finds one, otherwise
puts `(key, 1)` at the front of the chain and increments `size_`. -/
def insert (t : hashmap K) (key : K) : hashmap K :=
  let idx := index t key
  let r := inc t idx key
  if r.1 then r.2
  else
    { r.2 with
      buckets_ := r.2.buckets_.set idx ((key, 1) :: bucket r.2 idx)
      size_ := r.2.size_ + 1 }

/-- The loop of `operator[]` on one chain: the count of the first entry with key `key`. -/
def findCount (key : K) : Chain K → Option Nat
  | [] => none
  | (k, v) :: rest => if k = key then some v else findCount key rest

/-- The method `operator[]`: the count stored for `key`, or `std::invalid_argument`. -/
def count_of (t : hashmap K) (key : K) : Except Err Nat :=
  match findCount key (bucket t (index t key)) with
  | some v => .ok v
  | none => .error .invalid_argument

/-- The `for` loop of `erase` with `it` at the chain `c` given here and `it_prev` one
node before it: the chain from `it` on with the first entry of key `key` unlinked
(`erase_after(it_prev)`), or `none` when `it` reaches the end without a match. -/
def eraseAfter (key : K) : Chain K → Option (Chain K)
  | [] => none
  | (k, v) :: rest =>
    if k = key then some rest
    else (eraseAfter key rest).map (fun r => (k, v) :: r)

/-- The statement `--size_` on a `size_t`. -/
def decSize (n : Nat) : Nat := if n = 0 then SIZE_MOD - 1 else n - 1

/-- The method `erase`: nothing when `has(key)` is false; otherwise the head of the chain
is popped when it holds `key`, else the loop unlinks the first later entry of key `key`;
`--size_` goes with the removal.  After `has(key)` the chain is not empty, so the case of
an empty chain is never taken. -/
def erase (t : hashmap K) (key : K) : hashmap K :=
  if !has t key then t
  else
    let idx := index t key
    match bucket t idx with
    | [] => t
    | (k, v) :: rest =>
      if k = key then
        { t with buckets_ := t.buckets_.set idx rest, size_ := decSize t.size_ }
      else
        match eraseAfter key rest with
        | some rest' =>
          { t with buckets_ := t.buckets_.set idx ((k, v) :: rest'), size_ := decSize t.size_ }
        | none => t

/-- The inner loop of `extr` over one bucket, on the pair `(key, value)`. -/
def extrChain (comp : Nat → Nat → Bool) (acc : K × Nat) (c : Chain K) : K × Nat :=
  c.foldl (fun a e => if comp e.2 a.2 then (e.1, e.2) else a) acc

/-- The method `extr(comp)`.  `Type key;` is the default value of the key type, and
`value` starts at `(size_t)-1` when `comp(0, 1)` holds and at `0` otherwise. -/
def extr [Inhabited K] (comp : Nat → Nat → Bool) (t : hashmap K) : Except Err K :=
  let value : Nat := if comp 0 1 then SIZE_MOD - 1 else 0
  if t.size_ = 0 then .error .logic_error
  else
    .ok (t.buckets_.foldl
      (fun a b => if !b.isEmpty then extrChain comp a b else a) (default, value)).1

/-- The method `min`. -/
def min [Inhabited K] (t : hashmap K) : Except Err K :=
  extr (fun lhs rhs => decide (lhs < rhs)) t

/-- The method `max`. -/
def max [Inhabited K] (t : hashmap K) : Except Err K :=
  extr (fun lhs rhs => decide (lhs > rhs)) t

/-- The call `std::is_permutation(first1, last1, first2)` of the C++ standard library
with `l` the range `[first1, last1)` and `r` the list that starts at `first2`: whether
`l` is a permutation of the first `l.length` elements of `r`.  The behaviour is
undefined (`none`) when `r` has fewer elements than `l`. -/
def is_permutation (l r : Chain K) : Option Bool :=
  if r.length < l.length then none
  else some (decide (List.Perm l (r.take l.length)))

/-- The loop of `operator==` over the two bucket vectors, both iterators advancing
together until one of them reaches its end. -/
def eqLoop : List (Chain K) → List (Chain K) → Option Bool
  | l :: ls, r :: rs =>
    match is_permutation l r with
    | none => none
    | some false => some false
    | some true => eqLoop ls rs
  | _, _ => some true

/-- The method `operator==`. -/
def operator_eq (t rhs : hashmap K) : Option Bool :=
  if t.buckets_.length ≠ rhs.buckets_.length then some false
  else eqLoop t.buckets_ rhs.buckets_

/-- The method `operator!=`. -/
def operator_ne (t rhs : hashmap K) : Option Bool :=
  (operator_eq t rhs).map (fun b => !b)

/-- The method `print`: the records written, one `(key, count)` per entry, bucket after
bucket and each chain from its head.  A record stands for the line `key == count`. -/
def print (t : hashmap K) : List (K × Nat) :=
  t.buckets_.foldl (fun os b => b.foldl (fun os e => os ++ [(e.1, e.2)]) os) []

/-- The loop `for (unsigned i = 0; i < new_value.second; ++i) operator<<(new_value.first)`
of `read`, started at `i`.  `i` is an `unsigned`, the bound a `size_t`; `none` when the
loop has not ended after `fuel` tests of its condition. -/
def readLoop (key : K) (count : Nat) : Nat → Nat → hashmap K → Option (hashmap K)
  | 0, _, _ => none
  | fuel + 1, i, t =>
    if i < count then readLoop key count fuel ((i + 1) % UNSIGNED_MOD) (insert t key)
    else some t

/-- The `while` loop of `read` over the records of the file. -/
def readRecords (fuel : Nat) : List (K × Nat) → hashmap K → Option (hashmap K)
  | [], t => some t
  | (k, c) :: rest, t =>
    match readLoop k c fuel 0 t with
    | none => none
    | some t' => readRecords fuel rest t'

/-- The method `read` on a file that exists and holds the records `recs`: `clear()`, then
the loop over the records.  `fuel` bounds the number of iterations of each inner loop. -/
def read (fuel : Nat) (recs : List (K × Nat)) (t : hashmap K) : Option (hashmap K) :=
  readRecords fuel recs (clear t)

/-- The calls a client can make to change a table. -/
inductive Op (K : Type) where
  /-- `operator<<(key)`. -/
  | ins (key : K)
  /-- `erase(key)`. -/
  | del (key : K)
  /-- `clear()`. -/
  | clr

/-- One call applied to a table. -/
def step (t : hashmap K) : Op K → hashmap K
  | .ins k => insert t k
  | .del k => erase t k
  | .clr => clear t

/-- A sequence of calls applied from left to right. -/
def run (t : hashmap K) (ops : List (Op K)) : hashmap K :=
  ops.foldl step t

/-- The keys of a sequence inserted one by one. -/
def insertAll (t : hashmap K) (keys : List K) : hashmap K :=
  keys.foldl insert t

/-- A table that a client obtains from a constructed table of at least one bucket by
inserts, erases and clears. -/
def Reachable (t : hashmap K) : Prop :=
  ∃ (h : K → Nat) (n : Nat) (ops : List (Op K)), 0 < n ∧ t = run (mk h n) ops

/-- A table that a client obtains from the table constructed with hasher `h` and `n`
buckets by inserts, erases, clears and loads; a load counts once `read` has returned.  A
`read` that throws because the file cannot be opened has run `clear()` only, which is the
case `clr`. -/
inductive ReachableFrom (h : K → Nat) (n : Nat) : hashmap K → Prop where
  /-- The constructed table. -/
  | fresh : ReachableFrom h n (mk h n)
  /-- After `operator<<(key)`. -/
  | ins (t : hashmap K) (key : K) : ReachableFrom h n t → ReachableFrom h n (insert t key)
  /-- After `erase(key)`. -/
  | del (t : hashmap K) (key : K) : ReachableFrom h n t → ReachableFrom h n (erase t key)
  /-- After `clear()`. -/
  | clr (t : hashmap K) : ReachableFrom h n t → ReachableFrom h n (clear t)
  /-- After `read` of a file holding `recs`, when the call returns. -/
  | load (t t' : hashmap K) (fuel : Nat) (recs : List (K × Nat)) :
      ReachableFrom h n t → read fuel recs t = some t' → ReachableFrom h n t'

/-- All entries of the table in scan order: bucket after bucket, each from its head. -/
def entries (t : hashmap K) : List (K × Nat) :=
  t.buckets_.flatten

/-- Whether `key` is live after a history of calls: inserted since the last `erase` of
that key and the last `clear`. -/
def live (key : K) (ops : List (Op K)) : Bool :=
  ops.foldl (fun b op =>
    match op with
    | .ins k => if k = key then true else b
    | .del k => if k = key then false else b
    | .clr => false) false

/-! ## Auxiliary notions -/

/-- Whether a chain holds an entry of key `key`: the test made by `has`. -/
def chainHas (key : K) (c : Chain K) : Bool :=
  c.any (fun x => decide (x.1 = key))

/-- What `operator<<` leaves in the chain it works on. -/
def insChain (key : K) (c : Chain K) : Chain K :=
  if chainHas key c then (incChain key c).2 else (key, 1) :: c

/-- What `erase` leaves in the chain it works on. -/
def delChain (key : K) (c : Chain K) : Chain K :=
  (eraseAfter key c).getD c

/-- The table `t` with the entry `(key, c)` put at the head of the chain of `key`, and
`size_` incremented: what `c >= 1` inserts of a key without entry come to. -/
def put (t : hashmap K) (key : K) (c : Nat) : hashmap K :=
  { t with
    buckets_ := t.buckets_.set (index t key) ((key, c) :: bucket t (index t key))
    size_ := t.size_ + 1 }

/-- The records of a file put one after the other. -/
def putAll (t : hashmap K) (recs : List (K × Nat)) : hashmap K :=
  recs.foldl (fun u e => put u e.1 e.2) t

/-- The table `t` with every chain reversed. -/
def reversed (t : hashmap K) : hashmap K :=
  { hasher_ := t.hasher_, buckets_ := t.buckets_.map List.reverse, size_ := t.size_ }

/-- The loop of `operator[]` as a function of the table. -/
def lookup (t : hashmap K) (key : K) : Option Nat :=
  findCount key (bucket t (index t key))

/-- The invariant of the representation: at least one bucket, every entry in the bucket
its key indexes, no key twice in a chain, and `size_` the number of entries. -/
structure Inv (t : hashmap K) : Prop where
  /-- There is a bucket. -/
  pos : 0 < t.buckets_.length
  /-- An entry of bucket `i` has a key of index `i`. -/
  placed : ∀ i, ∀ e ∈ bucket t i, index t e.1 = i
  /-- The keys of a chain are pairwise distinct. -/
  nodup : ∀ i, ((bucket t i).map Prod.fst).Nodup
  /-- The member `size_` is the number of entries. -/
  size_eq : t.size_ = (entries t).length

/-! ## Lists of chains -/

theorem getD_set (l : List (Chain K)) (i j : Nat) (c : Chain K) (hi : i < l.length) :
    (l.set i c).getD j [] = if j = i then c else l.getD j [] := by
  simp only [List.getD_eq_getElem?_getD, List.getElem?_set]
  by_cases h : i = j
  · subst h; simp [hi]
  · have h' : ¬ j = i := fun e => h e.symm
    simp [h, h']

theorem set_getD_self (l : List (Chain K)) (i : Nat) : l.set i (l.getD i []) = l := by
  by_cases hi : i < l.length
  · apply List.ext_getElem?
    intro j
    rw [List.getElem?_set]
    by_cases h : i = j
    · subst h
      simp [hi, List.getD_eq_getElem?_getD]
    · simp [h]
  · exact List.set_eq_of_length_le (Nat.le_of_not_lt hi)

theorem set_set_same (l : List (Chain K)) (i : Nat) (c d : Chain K) :
    (l.set i c).set i d = l.set i d := by
  induction l generalizing i with
  | nil => rfl
  | cons x xs ih =>
    cases i with
    | zero => rfl
    | succ i => simp [List.set, ih]

theorem length_flatten_set (l : List (Chain K)) (i : Nat) (c : Chain K) (hi : i < l.length) :
    (l.set i c).flatten.length + (l.getD i []).length = l.flatten.length + c.length := by
  induction l generalizing i with
  | nil => simp at hi
  | cons x xs ih =>
    cases i with
    | zero => simp [List.set]; omega
    | succ i =>
      have h := ih i (by simpa using hi)
      simp only [List.set, List.flatten_cons, List.length_append, List.getD_cons_succ]
      omega

theorem mem_flatten_iff_getD (l : List (Chain K)) (e : K × Nat) :
    e ∈ l.flatten ↔ ∃ i, e ∈ l.getD i [] := by
  constructor
  · intro h
    obtain ⟨c, hc, hec⟩ := List.mem_flatten.mp h
    obtain ⟨i, hi⟩ := List.mem_iff_getElem?.mp hc
    exact ⟨i, by simpa [List.getD_eq_getElem?_getD, hi] using hec⟩
  · rintro ⟨i, hi⟩
    by_cases hlt : i < l.length
    · refine List.mem_flatten.mpr ⟨l.getD i [], ?_, hi⟩
      rw [List.getD_eq_getElem?_getD, List.getElem?_eq_getElem hlt]
      exact List.getElem_mem hlt
    · rw [List.getD_eq_getElem?_getD, List.getElem?_eq_none (Nat.le_of_not_lt hlt)] at hi
      simp at hi

theorem getD_replicate_nil (n i : Nat) :
    (List.replicate n ([] : Chain K)).getD i [] = [] := by
  rw [List.getD_eq_getElem?_getD, List.getElem?_replicate]
  split <;> rfl

theorem flatten_replicate_nil (n : Nat) :
    (List.replicate n ([] : Chain K)).flatten = [] := by
  induction n with
  | zero => rfl
  | succ n ih => simp [List.replicate_succ, ih]

/-! ## One chain -/

theorem chainHas_nil (key : K) : chainHas key ([] : Chain K) = false := rfl

theorem chainHas_cons (key k : K) (v : Nat) (c : Chain K) :
    chainHas key ((k, v) :: c) = (decide (k = key) || chainHas key c) := by
  simp [chainHas]

theorem chainHas_iff (key : K) (c : Chain K) :
    chainHas key c = true ↔ ∃ v, (key, v) ∈ c := by
  simp only [chainHas, List.any_eq_true, decide_eq_true_eq]
  constructor
  · rintro ⟨⟨k, v⟩, hm, rfl⟩
    exact ⟨v, hm⟩
  · rintro ⟨v, hm⟩
    exact ⟨(key, v), hm, rfl⟩

theorem chainHas_iff_mem_keys (key : K) (c : Chain K) :
    chainHas key c = true ↔ key ∈ c.map Prod.fst := by
  rw [chainHas_iff]
  simp

theorem incChain_fst (key : K) (c : Chain K) : (incChain key c).1 = chainHas key c := by
  induction c with
  | nil => rfl
  | cons e c ih =>
    obtain ⟨k, v⟩ := e
    by_cases h : k = key
    · simp [incChain, chainHas_cons, h]
    · simp [incChain, chainHas_cons, h, ih]

theorem incChain_snd_of_not_has (key : K) (c : Chain K) (h : chainHas key c = false) :
    (incChain key c).2 = c := by
  induction c with
  | nil => rfl
  | cons e c ih =>
    obtain ⟨k, v⟩ := e
    rw [chainHas_cons] at h
    simp only [Bool.or_eq_false_iff, decide_eq_false_iff_not] at h
    simp [incChain, h.1, ih h.2]

theorem incChain_keys (key : K) (c : Chain K) :
    (incChain key c).2.map Prod.fst = c.map Prod.fst := by
  induction c with
  | nil => rfl
  | cons e c ih =>
    obtain ⟨k, v⟩ := e
    by_cases h : k = key
    · simp [incChain, h]
    · simp [incChain, h, ih]

theorem incChain_length (key : K) (c : Chain K) : (incChain key c).2.length = c.length := by
  have h := congrArg List.length (incChain_keys key c)
  simpa using h

theorem findCount_incChain (key j : K) (c : Chain K) :
    findCount j (incChain key c).2 =
      if j = key then (findCount key c).map (fun v => (v + 1) % SIZE_MOD)
      else findCount j c := by
  induction c with
  | nil => simp [incChain, findCount]
  | cons e c ih =>
    obtain ⟨k, v⟩ := e
    by_cases h : k = key
    · subst h
      by_cases hj : j = k
      · subst hj; simp [incChain, findCount]
      · have hj' : ¬ k = j := fun e => hj e.symm
        simp [incChain, findCount, hj, hj']
    · by_cases hj : j = key
      · subst hj
        simp [incChain, findCount, h, ih]
      · simp only [incChain, h, if_false, findCount, ih, hj]

theorem findCount_isSome (key : K) (c : Chain K) :
    (findCount key c).isSome = chainHas key c := by
  induction c with
  | nil => rfl
  | cons e c ih =>
    obtain ⟨k, v⟩ := e
    by_cases h : k = key
    · simp [findCount, chainHas_cons, h]
    · simp [findCount, chainHas_cons, h, ih]

theorem findCount_mem (key : K) (c : Chain K) (v : Nat) (h : findCount key c = some v) :
    (key, v) ∈ c := by
  induction c with
  | nil => simp [findCount] at h
  | cons e c ih =>
    obtain ⟨k, w⟩ := e
    by_cases hk : k = key
    · simp only [findCount, hk, if_true, Option.some.injEq] at h
      simp [hk, h]
    · simp only [findCount, hk, if_false] at h
      exact List.mem_cons_of_mem _ (ih h)

theorem eraseAfter_isSome (key : K) (c : Chain K) :
    (eraseAfter key c).isSome = chainHas key c := by
  induction c with
  | nil => rfl
  | cons e c ih =>
    obtain ⟨k, v⟩ := e
    by_cases h : k = key
    · simp [eraseAfter, chainHas_cons, h]
    · simp [eraseAfter, chainHas_cons, h, ih]

theorem eraseAfter_eq_none (key : K) (c : Chain K) (h : chainHas key c = false) :
    eraseAfter key c = none := by
  have := eraseAfter_isSome key c
  rw [h] at this
  cases hc : eraseAfter key c with
  | none => rfl
  | some r => rw [hc] at this; simp at this

theorem delChain_of_not_has (key : K) (c : Chain K) (h : chainHas key c = false) :
    delChain key c = c := by
  simp [delChain, eraseAfter_eq_none key c h]

theorem delChain_cons (key k : K) (v : Nat) (c : Chain K) :
    delChain key ((k, v) :: c) = if k = key then c else (k, v) :: delChain key c := by
  by_cases h : k = key
  · simp [delChain, eraseAfter, h]
  · simp only [delChain, eraseAfter, h, if_false]
    cases eraseAfter key c <;> rfl

theorem delChain_keys (key : K) (c : Chain K) :
    (delChain key c).map Prod.fst = (c.map Prod.fst).erase key := by
  induction c with
  | nil => rfl
  | cons e c ih =>
    obtain ⟨k, v⟩ := e
    rw [delChain_cons]
    by_cases h : k = key
    · subst h; simp
    · simp [h, ih, List.erase_cons_tail]

theorem delChain_length (key : K) (c : Chain K) (h : chainHas key c = true) :
    (delChain key c).length + 1 = c.length := by
  induction c with
  | nil => simp [chainHas] at h
  | cons e c ih =>
    obtain ⟨k, v⟩ := e
    rw [delChain_cons]
    by_cases hk : k = key
    · simp [hk]
    · rw [chainHas_cons] at h
      simp only [hk, decide_False, Bool.false_or] at h
      simp [hk, ih h]

theorem delChain_subset (key : K) (c : Chain K) (e : K × Nat) (h : e ∈ delChain key c) :
    e ∈ c := by
  induction c with
  | nil => simp [delChain, eraseAfter] at h
  | cons x c ih =>
    obtain ⟨k, v⟩ := x
    rw [delChain_cons] at h
    by_cases hk : k = key
    · simp only [hk, if_true] at h
      exact List.mem_cons_of_mem _ h
    · simp only [hk, if_false, List.mem_cons] at h
      rcases h with h | h
      · simp [h]
      · exact List.mem_cons_of_mem _ (ih h)

theorem findCount_delChain (key j : K) (c : Chain K) (hj : j ≠ key) :
    findCount j (delChain key c) = findCount j c := by
  induction c with
  | nil => rfl
  | cons x c ih =>
    obtain ⟨k, v⟩ := x
    rw [delChain_cons]
    by_cases hk : k = key
    · have hkj : ¬ k = j := fun e => hj (e.symm.trans hk)
      simp only [hk, if_true, findCount]
      rw [if_neg (fun e => hj e.symm)]
    · by_cases hkj : k = j
      · rw [if_neg hk]
        simp only [findCount, hkj, if_true]
      · simp only [hk, if_false, findCount, hkj, ih]

theorem chainHas_delChain_of_ne (key j : K) (c : Chain K) (hj : j ≠ key) :
    chainHas j (delChain key c) = chainHas j c := by
  rw [← findCount_isSome, ← findCount_isSome, findCount_delChain key j c hj]

theorem chainHas_delChain_self (key : K) (c : Chain K) (hc : (c.map Prod.fst).Nodup) :
    chainHas key (delChain key c) = false := by
  cases h : chainHas key (delChain key c) with
  | false => rfl
  | true =>
    rw [chainHas_iff_mem_keys, delChain_keys] at h
    exact absurd h (fun hm => (hc.mem_erase_iff.mp hm).1 rfl)

theorem chainHas_insChain (key j : K) (c : Chain K) :
    chainHas j (insChain key c) = (decide (j = key) || chainHas j c) := by
  unfold insChain
  cases h : chainHas key c with
  | true =>
    simp only [if_true]
    have e : chainHas j (incChain key c).2 = chainHas j c := by
      rw [← findCount_isSome, ← findCount_isSome, findCount_incChain]
      by_cases hj : j = key
      · subst hj; simp
      · simp [hj]
    rw [e]
    by_cases hj : j = key
    · subst hj; simp [h]
    · simp [hj]
  | false =>
    simp only [Bool.false_eq_true, if_false, chainHas_cons]
    by_cases hj : j = key
    · subst hj; simp
    · have hj' : ¬ key = j := fun e => hj e.symm
      simp [hj, hj']

theorem insChain_keys_of_has (key : K) (c : Chain K) (h : chainHas key c = true) :
    (insChain key c).map Prod.fst = c.map Prod.fst := by
  simp [insChain, h, incChain_keys]

theorem insChain_of_not_has (key : K) (c : Chain K) (h : chainHas key c = false) :
    insChain key c = (key, 1) :: c := by
  simp [insChain, h]

theorem insChain_length (key : K) (c : Chain K) :
    (insChain key c).length = if chainHas key c then c.length else c.length + 1 := by
  unfold insChain
  cases h : chainHas key c <;> simp [incChain_length]

theorem findCount_insChain (key j : K) (c : Chain K) :
    findCount j (insChain key c) =
      if j = key then
        (match findCount key c with
         | some v => some ((v + 1) % SIZE_MOD)
         | none => some 1)
      else findCount j c := by
  unfold insChain
  cases h : chainHas key c with
  | true =>
    simp only [if_true, findCount_incChain]
    by_cases hj : j = key
    · simp only [hj, if_true]
      have hs := findCount_isSome key c
      rw [h] at hs
      cases hf : findCount key c with
      | none => rw [hf] at hs; simp at hs
      | some v => rfl
    · simp [hj]
  | false =>
    simp only [Bool.false_eq_true, if_false, findCount]
    have hs := findCount_isSome key c
    rw [h] at hs
    by_cases hj : j = key
    · subst hj
      cases hf : findCount j c with
      | none => simp
      | some v => rw [hf] at hs; simp at hs
    · have hj' : ¬ key = j := fun e => hj e.symm
      simp [hj, hj']

/-! ## The mutators as one chain replaced -/

theorem has_eq (t : hashmap K) (key : K) :
    has t key = chainHas key (bucket t (index t key)) := rfl

theorem insert_buckets (t : hashmap K) (key : K) :
    (insert t key).buckets_ =
      t.buckets_.set (index t key) (insChain key (bucket t (index t key))) := by
  unfold insert inc insChain
  simp only [incChain_fst]
  cases h : chainHas key (bucket t (index t key)) with
  | true => simp
  | false =>
    simp only [Bool.false_eq_true, if_false, set_set_same]
    rw [incChain_snd_of_not_has key _ h]
    by_cases hi : index t key < t.buckets_.length
    · simp only [bucket]
      rw [getD_set _ _ _ _ hi]
      simp
    · rw [List.set_eq_of_length_le (Nat.le_of_not_lt hi),
        List.set_eq_of_length_le (Nat.le_of_not_lt hi)]

theorem insert_hasher (t : hashmap K) (key : K) : (insert t key).hasher_ = t.hasher_ := by
  unfold insert inc
  simp only
  split <;> rfl

theorem insert_size (t : hashmap K) (key : K) :
    (insert t key).size_ = if has t key then t.size_ else t.size_ + 1 := by
  unfold insert inc
  simp only [incChain_fst, has_eq]
  split <;> rfl

theorem erase_buckets (t : hashmap K) (key : K) :
    (erase t key).buckets_ =
      t.buckets_.set (index t key) (delChain key (bucket t (index t key))) := by
  unfold erase
  rw [has_eq]
  cases h : chainHas key (bucket t (index t key)) with
  | false =>
    simp only [Bool.not_false, if_true]
    rw [delChain_of_not_has key _ h]
    exact (set_getD_self _ _).symm
  | true =>
    simp only [Bool.not_true, Bool.false_eq_true, if_false]
    cases hb : bucket t (index t key) with
    | nil => rw [hb] at h; simp [chainHas] at h
    | cons e rest =>
      obtain ⟨k, v⟩ := e
      simp only
      rw [delChain_cons]
      by_cases hk : k = key
      · simp [hk]
      · simp only [hk, if_false]
        rw [hb, chainHas_cons] at h
        simp only [hk, decide_False, Bool.false_or] at h
        have hs := eraseAfter_isSome key rest
        rw [h] at hs
        cases hf : eraseAfter key rest with
        | none => rw [hf] at hs; simp at hs
        | some r => simp [delChain, hf]

theorem erase_hasher (t : hashmap K) (key : K) : (erase t key).hasher_ = t.hasher_ := by
  unfold erase
  split
  · rfl
  · simp only
    split
    · rfl
    · split
      · rfl
      · split <;> rfl

theorem erase_size (t : hashmap K) (key : K) :
    (erase t key).size_ = if has t key then decSize t.size_ else t.size_ := by
  unfold erase
  rw [has_eq]
  cases h : chainHas key (bucket t (index t key)) with
  | false => simp
  | true =>
    simp only [Bool.not_true, Bool.false_eq_true, if_false, if_true]
    cases hb : bucket t (index t key) with
    | nil => rw [hb] at h; simp [chainHas] at h
    | cons e rest =>
      obtain ⟨k, v⟩ := e
      simp only
      by_cases hk : k = key
      · simp [hk]
      · simp only [hk, if_false]
        rw [hb, chainHas_cons] at h
        simp only [hk, decide_False, Bool.false_or] at h
        have hs := eraseAfter_isSome key rest
        rw [h] at hs
        cases hf : eraseAfter key rest with
        | none => rw [hf] at hs; simp at hs
        | some r => rfl

theorem erase_of_not_has (t : hashmap K) (key : K) (h : has t key = false) :
    erase t key = t := by
  simp [erase, h]

theorem index_lt (t : hashmap K) (key : K) (h : 0 < t.buckets_.length) :
    index t key < t.buckets_.length :=
  Nat.mod_lt _ h

theorem insert_length (t : hashmap K) (key : K) :
    (insert t key).buckets_.length = t.buckets_.length := by
  rw [insert_buckets, List.length_set]

theorem erase_length (t : hashmap K) (key : K) :
    (erase t key).buckets_.length = t.buckets_.length := by
  rw [erase_buckets, List.length_set]

theorem clear_length (t : hashmap K) : (clear t).buckets_.length = t.buckets_.length := by
  simp [clear]

theorem index_insert (t : hashmap K) (key j : K) : index (insert t key) j = index t j := by
  simp [index, insert_hasher, insert_length]

theorem index_erase (t : hashmap K) (key j : K) : index (erase t key) j = index t j := by
  simp [index, erase_hasher, erase_length]

theorem index_clear (t : hashmap K) (j : K) : index (clear t) j = index t j := by
  simp [index, clear]

theorem bucket_insert (t : hashmap K) (key : K) (i : Nat) (h : 0 < t.buckets_.length) :
    bucket (insert t key) i =
      if i = index t key then insChain key (bucket t i) else bucket t i := by
  unfold bucket
  rw [insert_buckets, getD_set _ _ _ _ (index_lt t key h)]
  by_cases hi : i = index t key
  · simp [hi, bucket]
  · simp [hi]

theorem bucket_erase (t : hashmap K) (key : K) (i : Nat) (h : 0 < t.buckets_.length) :
    bucket (erase t key) i =
      if i = index t key then delChain key (bucket t i) else bucket t i := by
  unfold bucket
  rw [erase_buckets, getD_set _ _ _ _ (index_lt t key h)]
  by_cases hi : i = index t key
  · simp [hi, bucket]
  · simp [hi]

theorem bucket_clear (t : hashmap K) (i : Nat) : bucket (clear t) i = [] := by
  simp [bucket, clear, getD_replicate_nil]

theorem bucket_mk (h : K → Nat) (n i : Nat) : bucket (mk h n) i = [] := by
  simp [bucket, mk, getD_replicate_nil]

theorem has_insert (t : hashmap K) (key j : K) (h : 0 < t.buckets_.length) :
    has (insert t key) j = (decide (j = key) || has t j) := by
  rw [has_eq, has_eq, index_insert, bucket_insert t key _ h]
  by_cases hi : index t j = index t key
  · rw [if_pos hi, chainHas_insChain]
  · have hj : ¬ j = key := fun e => hi (by rw [e])
    simp [hi, hj]

theorem has_erase_of_ne (t : hashmap K) (key j : K) (h : 0 < t.buckets_.length)
    (hj : j ≠ key) : has (erase t key) j = has t j := by
  rw [has_eq, has_eq, index_erase, bucket_erase t key _ h]
  by_cases hi : index t j = index t key
  · rw [if_pos hi, chainHas_delChain_of_ne key j _ hj]
  · rw [if_neg hi]

theorem has_clear (t : hashmap K) (j : K) : has (clear t) j = false := by
  rw [has_eq, bucket_clear]; rfl

theorem has_mk (h : K → Nat) (n : Nat) (j : K) : has (mk h n) j = false := by
  rw [has_eq, bucket_mk]; rfl

theorem count_of_eq (t : hashmap K) (key : K) :
    count_of t key =
      match lookup t key with
      | some v => .ok v
      | none => .error .invalid_argument := rfl

theorem lookup_isSome (t : hashmap K) (key : K) : (lookup t key).isSome = has t key := by
  rw [lookup, findCount_isSome, has_eq]

theorem lookup_insert (t : hashmap K) (key j : K) (h : 0 < t.buckets_.length) :
    lookup (insert t key) j =
      if j = key then
        (match lookup t key with
         | some v => some ((v + 1) % SIZE_MOD)
         | none => some 1)
      else lookup t j := by
  unfold lookup
  rw [index_insert, bucket_insert t key _ h]
  by_cases hj : j = key
  · subst hj
    simp [findCount_insChain]
  · by_cases hi : index t j = index t key
    · rw [if_pos hi, findCount_insChain, if_neg hj, if_neg hj]
    · rw [if_neg hi, if_neg hj]

theorem lookup_erase_of_ne (t : hashmap K) (key j : K) (h : 0 < t.buckets_.length)
    (hj : j ≠ key) : lookup (erase t key) j = lookup t j := by
  unfold lookup
  rw [index_erase, bucket_erase t key _ h]
  by_cases hi : index t j = index t key
  · rw [if_pos hi, findCount_delChain key j _ hj]
  · rw [if_neg hi]

/-! ## The structural invariant -/

theorem mem_entries_iff (t : hashmap K) (e : K × Nat) :
    e ∈ entries t ↔ ∃ i, e ∈ bucket t i :=
  mem_flatten_iff_getD t.buckets_ e

theorem Inv_mk (h : K → Nat) (n : Nat) (hn : 0 < n) : Inv (mk h n) where
  pos := by simpa [mk] using hn
  placed := by intro i e he; rw [bucket_mk] at he; simp at he
  nodup := by intro i; rw [bucket_mk]; simp
  size_eq := by simp [mk, entries, flatten_replicate_nil]

theorem Inv_clear (t : hashmap K) (ht : 0 < t.buckets_.length) : Inv (clear t) where
  pos := by rw [clear_length]; exact ht
  placed := by intro i e he; rw [bucket_clear] at he; simp at he
  nodup := by intro i; rw [bucket_clear]; simp
  size_eq := by simp [clear, entries, flatten_replicate_nil]

theorem Inv_insert (t : hashmap K) (key : K) (ht : Inv t) : Inv (insert t key) where
  pos := by rw [insert_length]; exact ht.pos
  placed := by
    intro i e he
    rw [index_insert]
    rw [bucket_insert t key i ht.pos] at he
    by_cases hi : i = index t key
    · rw [if_pos hi] at he
      by_cases hk : e.1 = key
      · rw [hk, hi]
      · have h1 : chainHas e.1 (insChain key (bucket t i)) = true :=
          (chainHas_iff _ _).mpr ⟨e.2, he⟩
        rw [chainHas_insChain] at h1
        simp only [hk, decide_False, Bool.false_or] at h1
        obtain ⟨v, hv⟩ := (chainHas_iff _ _).mp h1
        exact ht.placed i (e.1, v) hv
    · rw [if_neg hi] at he
      exact ht.placed i e he
  nodup := by
    intro i
    rw [bucket_insert t key i ht.pos]
    by_cases hi : i = index t key
    · rw [if_pos hi]
      cases hc : chainHas key (bucket t i) with
      | true =>
        rw [insChain_keys_of_has key _ hc]
        exact ht.nodup i
      | false =>
        rw [insChain_of_not_has key _ hc]
        simp only [List.map_cons, List.nodup_cons]
        refine ⟨?_, ht.nodup i⟩
        intro hm
        rw [← chainHas_iff_mem_keys, hc] at hm
        exact Bool.false_ne_true hm
    · rw [if_neg hi]
      exact ht.nodup i
  size_eq := by
    rw [insert_size]
    have hl := length_flatten_set t.buckets_ (index t key)
      (insChain key (bucket t (index t key))) (index_lt t key ht.pos)
    rw [insChain_length] at hl
    have hs := ht.size_eq
    simp only [entries, insert_buckets] at hs ⊢
    simp only [has_eq]
    simp only [bucket] at hl ⊢
    split at hl <;> rename_i hc
    · rw [if_pos hc]; omega
    · rw [if_neg hc]; omega

theorem has_iff_mem_entries (t : hashmap K) (key : K) (ht : Inv t) :
    has t key = true ↔ ∃ v, (key, v) ∈ entries t := by
  rw [has_eq, chainHas_iff]
  constructor
  · rintro ⟨v, hv⟩
    exact ⟨v, (mem_entries_iff t _).mpr ⟨_, hv⟩⟩
  · rintro ⟨v, hv⟩
    obtain ⟨i, hi⟩ := (mem_entries_iff t _).mp hv
    have := ht.placed i _ hi
    simp only at this
    rw [this]
    exact ⟨v, hi⟩

theorem size_pos_of_has (t : hashmap K) (key : K) (ht : Inv t) (h : has t key = true) :
    0 < t.size_ := by
  obtain ⟨v, hv⟩ := (has_iff_mem_entries t key ht).mp h
  rw [ht.size_eq]
  exact List.length_pos_of_mem hv

theorem Inv_erase (t : hashmap K) (key : K) (ht : Inv t) : Inv (erase t key) where
  pos := by rw [erase_length]; exact ht.pos
  placed := by
    intro i e he
    rw [index_erase]
    rw [bucket_erase t key i ht.pos] at he
    by_cases hi : i = index t key
    · rw [if_pos hi] at he
      exact ht.placed i e (delChain_subset key _ e he)
    · rw [if_neg hi] at he
      exact ht.placed i e he
  nodup := by
    intro i
    rw [bucket_erase t key i ht.pos]
    by_cases hi : i = index t key
    · rw [if_pos hi, delChain_keys]
      exact (ht.nodup i).erase key
    · rw [if_neg hi]
      exact ht.nodup i
  size_eq := by
    rw [erase_size]
    cases hc : has t key with
    | false =>
      rw [erase_of_not_has t key hc]
      simpa using ht.size_eq
    | true =>
      have hp := size_pos_of_has t key ht hc
      have hl := length_flatten_set t.buckets_ (index t key)
        (delChain key (bucket t (index t key))) (index_lt t key ht.pos)
      have hd := delChain_length key (bucket t (index t key)) (by rw [← has_eq]; exact hc)
      have hs := ht.size_eq
      have hb : t.buckets_.getD (index t key) [] = bucket t (index t key) := rfl
      rw [hb] at hl
      simp only [entries, erase_buckets] at hs ⊢
      simp only [if_true, decSize]
      rw [if_neg (by omega)]
      omega

theorem Inv_step (t : hashmap K) (op : Op K) (ht : Inv t) : Inv (step t op) := by
  cases op with
  | ins k => exact Inv_insert t k ht
  | del k => exact Inv_erase t k ht
  | clr => exact Inv_clear t ht.pos

theorem Inv_run (t : hashmap K) (ops : List (Op K)) (ht : Inv t) : Inv (run t ops) := by
  induction ops generalizing t with
  | nil => exact ht
  | cons op ops ih => exact ih (step t op) (Inv_step t op ht)

theorem Inv_of_reachable (t : hashmap K) (h : Reachable t) : Inv t := by
  obtain ⟨hf, n, ops, hn, rfl⟩ := h
  exact Inv_run _ ops (Inv_mk hf n hn)

theorem Inv_insertAll (t : hashmap K) (keys : List K) (ht : Inv t) :
    Inv (insertAll t keys) := by
  induction keys generalizing t with
  | nil => exact ht
  | cons k ks ih => exact ih (insert t k) (Inv_insert t k ht)

theorem has_erase_self (t : hashmap K) (key : K) (ht : Inv t) :
    has (erase t key) key = false := by
  rw [has_eq, index_erase, bucket_erase t key _ ht.pos, if_pos rfl]
  exact chainHas_delChain_self key _ (ht.nodup _)

theorem run_append (t : hashmap K) (ops : List (Op K)) (op : Op K) :
    run t (ops ++ [op]) = step (run t ops) op := by
  simp [run, List.foldl_append]

theorem insertAll_append (t : hashmap K) (keys : List K) (key : K) :
    insertAll t (keys ++ [key]) = insert (insertAll t keys) key := by
  simp [insertAll, List.foldl_append]

/-! ## Sequences of inserts -/

theorem has_insertAll (h : K → Nat) (n : Nat) (hn : 0 < n) (keys : List K) (k : K) :
    has (insertAll (mk h n) keys) k = decide (k ∈ keys) := by
  induction keys using List.reverseRecOn with
  | nil => simp [insertAll, has_mk]
  | append_singleton ks x ih =>
    rw [insertAll_append, has_insert _ _ _ (Inv_insertAll _ ks (Inv_mk h n hn)).pos, ih]
    by_cases hk : k = x
    · simp [hk]
    · simp [hk]

theorem size_insertAll_card (h : K → Nat) (n : Nat) (hn : 0 < n) (keys : List K) :
    (insertAll (mk h n) keys).size_ = keys.toFinset.card := by
  induction keys using List.reverseRecOn with
  | nil => simp [insertAll, mk]
  | append_singleton ks x ih =>
    rw [insertAll_append, insert_size, has_insertAll h n hn, ih]
    have e : (ks ++ [x]).toFinset = Insert.insert x ks.toFinset := by
      ext a; simp [or_comm]
    rw [e]
    by_cases hx : x ∈ ks
    · rw [Finset.card_insert_of_mem (List.mem_toFinset.mpr hx)]
      simp [hx]
    · rw [Finset.card_insert_of_not_mem (fun hm => hx (List.mem_toFinset.mp hm))]
      simp [hx]

theorem lookup_insertAll (h : K → Nat) (n : Nat) (hn : 0 < n) (keys : List K) (k : K) :
    lookup (insertAll (mk h n) keys) k =
      if keys.count k = 0 then none else some (keys.count k % SIZE_MOD) := by
  induction keys using List.reverseRecOn with
  | nil => simp [insertAll, lookup, bucket_mk, findCount]
  | append_singleton ks x ih =>
    rw [insertAll_append, lookup_insert _ _ _ (Inv_insertAll _ ks (Inv_mk h n hn)).pos]
    by_cases hk : k = x
    · subst hk
      rw [if_pos rfl, ih]
      have hc : List.count k (ks ++ [k]) = List.count k ks + 1 := by
        simp [List.count_append]
      rw [hc, if_neg (Nat.succ_ne_zero _)]
      by_cases h0 : List.count k ks = 0
      · simp [h0, SIZE_MOD]
      · simp only [h0, if_false]
        rw [Nat.add_mod (List.count k ks) 1 SIZE_MOD]
        simp [SIZE_MOD]
    · have hc : List.count k (ks ++ [x]) = List.count k ks := by
        have hx : ¬ x = k := fun e => hk e.symm
        simp [List.count_append, List.count_singleton, hx]
      rw [if_neg hk, ih, hc]

/-! ## Entries of a table under the invariant -/

theorem findCount_of_mem (key : K) (v : Nat) (c : Chain K) (hc : (c.map Prod.fst).Nodup)
    (hm : (key, v) ∈ c) : findCount key c = some v := by
  induction c with
  | nil => simp at hm
  | cons e c ih =>
    obtain ⟨k, w⟩ := e
    simp only [List.map_cons, List.nodup_cons] at hc
    by_cases hk : k = key
    · subst hk
      simp only [findCount, if_true, Option.some.injEq]
      rcases List.mem_cons.mp hm with h | h
      · exact (Prod.mk.inj h).2.symm
      · exact absurd (List.mem_map_of_mem Prod.fst h) hc.1
    · simp only [findCount, hk, if_false]
      rcases List.mem_cons.mp hm with h | h
      · exact absurd (Prod.mk.inj h).1.symm hk
      · exact ih hc.2 h

theorem lookup_of_mem_entries (t : hashmap K) (key : K) (v : Nat) (ht : Inv t)
    (hm : (key, v) ∈ entries t) : lookup t key = some v := by
  obtain ⟨i, hi⟩ := (mem_entries_iff t _).mp hm
  have hp := ht.placed i _ hi
  simp only at hp
  rw [lookup, hp]
  exact findCount_of_mem key v _ (ht.nodup i) hi

theorem mem_entries_of_lookup (t : hashmap K) (key : K) (v : Nat)
    (h : lookup t key = some v) : (key, v) ∈ entries t :=
  (mem_entries_iff t _).mpr ⟨_, findCount_mem key _ v h⟩

theorem delChain_eq_filter (key : K) (c : Chain K) (hc : (c.map Prod.fst).Nodup) :
    delChain key c = c.filter (fun e => decide (e.1 ≠ key)) := by
  induction c with
  | nil => rfl
  | cons e c ih =>
    obtain ⟨k, w⟩ := e
    simp only [List.map_cons, List.nodup_cons] at hc
    rw [delChain_cons]
    by_cases hk : k = key
    · subst hk
      simp only [if_true, ne_eq, not_true_eq_false, decide_False, Bool.false_eq_true,
        not_false_eq_true, List.filter_cons_of_neg]
      symm
      rw [List.filter_eq_self]
      intro a ha
      simp only [decide_eq_true_eq]
      intro e
      exact hc.1 (e ▸ List.mem_map_of_mem Prod.fst ha)
    · simp [hk, ih hc.2]

theorem erase_buckets_eq_map (t : hashmap K) (key : K) (ht : Inv t) :
    (erase t key).buckets_ =
      t.buckets_.map (fun c => c.filter (fun e => decide (e.1 ≠ key))) := by
  rw [erase_buckets]
  apply List.ext_getElem?
  intro i
  rw [List.getElem?_set, List.getElem?_map]
  have hlt := index_lt t key ht.pos
  by_cases hi : index t key = i
  · subst hi
    rw [if_pos rfl, if_pos hlt, List.getElem?_eq_getElem hlt]
    simp only [Option.map_some']
    have hb : bucket t (index t key) = t.buckets_[index t key] := by
      simp [bucket, List.getD_eq_getElem?_getD, List.getElem?_eq_getElem hlt]
    rw [delChain_eq_filter key _ (ht.nodup _), hb]
  · rw [if_neg hi]
    cases hc : t.buckets_[i]? with
    | none => rfl
    | some c =>
      simp only [Option.map_some', Option.some.injEq]
      symm
      rw [List.filter_eq_self]
      intro a ha
      simp only [decide_eq_true_eq]
      intro e
      have hb : bucket t i = c := by
        simp [bucket, List.getD_eq_getElem?_getD, hc]
      have hp := ht.placed i a (by rw [hb]; exact ha)
      rw [e] at hp
      exact hi hp

theorem entries_erase (t : hashmap K) (key : K) (ht : Inv t) :
    entries (erase t key) = (entries t).filter (fun e => decide (e.1 ≠ key)) := by
  rw [entries, entries, erase_buckets_eq_map t key ht, List.filter_flatten]

/-! ## Histories of calls -/

theorem live_append (key : K) (ops : List (Op K)) (op : Op K) :
    live key (ops ++ [op]) =
      match op with
      | .ins k => if k = key then true else live key ops
      | .del k => if k = key then false else live key ops
      | .clr => false := by
  simp only [live, List.foldl_append, List.foldl_cons, List.foldl_nil]

theorem has_run (h : K → Nat) (n : Nat) (hn : 0 < n) (ops : List (Op K)) (key : K) :
    has (run (mk h n) ops) key = live key ops := by
  induction ops using List.reverseRecOn with
  | nil => simp [run, live, has_mk]
  | append_singleton ops op ih =>
    have hinv := Inv_run (mk h n) ops (Inv_mk h n hn)
    rw [run_append, live_append]
    cases op with
    | ins k =>
      simp only [step]
      rw [has_insert _ _ _ hinv.pos, ih]
      by_cases hk : k = key
      · simp [hk]
      · have hk' : ¬ key = k := fun e => hk e.symm
        simp [hk, hk']
    | del k =>
      simp only [step]
      by_cases hk : k = key
      · subst hk
        rw [has_erase_self _ _ hinv]
        simp
      · rw [has_erase_of_ne _ _ _ hinv.pos (fun e => hk e.symm), ih]
        simp [hk]
    | clr =>
      simp only [step]
      rw [has_clear]

theorem run_map_ins (t : hashmap K) (keys : List K) :
    run t (keys.map Op.ins) = insertAll t keys := by
  simp only [run, insertAll, List.foldl_map]
  rfl

theorem reachable_insertAll (h : K → Nat) (n : Nat) (hn : 0 < n) (keys : List K) :
    Reachable (insertAll (mk h n) keys) :=
  ⟨h, n, keys.map Op.ins, hn, (run_map_ins _ keys).symm⟩

/-! ## The scan of `extr` -/

theorem extrChain_append (comp : Nat → Nat → Bool) (acc : K × Nat) (c d : Chain K) :
    extrChain comp acc (c ++ d) = extrChain comp (extrChain comp acc c) d := by
  simp [extrChain, List.foldl_append]

theorem extr_scan (comp : Nat → Nat → Bool) (acc : K × Nat) (bs : List (Chain K)) :
    bs.foldl (fun a b => if !b.isEmpty then extrChain comp a b else a) acc
      = extrChain comp acc bs.flatten := by
  induction bs generalizing acc with
  | nil => rfl
  | cons b bs ih =>
    rw [List.foldl_cons, ih, List.flatten_cons, extrChain_append]
    cases b with
    | nil => rfl
    | cons e b => rfl

theorem extr_eq [Inhabited K] (comp : Nat → Nat → Bool) (t : hashmap K) :
    extr comp t =
      if t.size_ = 0 then .error .logic_error
      else .ok (extrChain comp (default, if comp 0 1 then SIZE_MOD - 1 else 0) (entries t)).1 := by
  unfold extr
  simp only [extr_scan, entries]

theorem max_eq [Inhabited K] (t : hashmap K) :
    max t =
      if t.size_ = 0 then .error .logic_error
      else .ok (extrChain (fun lhs rhs => decide (lhs > rhs)) (default, 0) (entries t)).1 := by
  rw [max, extr_eq]
  simp

theorem extrChain_gt_cons (acc e : K × Nat) (c : Chain K) :
    extrChain (fun lhs rhs => decide (lhs > rhs)) acc (e :: c) =
      extrChain (fun lhs rhs => decide (lhs > rhs)) (if acc.2 < e.2 then e else acc) c := by
  simp [extrChain]

theorem extrChain_gt_keep (acc : K × Nat) (c : Chain K) (h : ∀ e ∈ c, e.2 ≤ acc.2) :
    extrChain (fun lhs rhs => decide (lhs > rhs)) acc c = acc := by
  induction c with
  | nil => rfl
  | cons e c ih =>
    rw [extrChain_gt_cons, if_neg (Nat.not_lt.mpr (h e (List.mem_cons_self _ _)))]
    exact ih (fun x hx => h x (List.mem_cons_of_mem _ hx))

theorem extrChain_gt_first (acc : K × Nat) (c : Chain K) (h : ∃ e ∈ c, acc.2 < e.2) :
    ∃ k v pre post,
      extrChain (fun lhs rhs => decide (lhs > rhs)) acc c = (k, v) ∧
      c = pre ++ (k, v) :: post ∧ (∀ e ∈ pre, e.2 < v) ∧ (∀ e ∈ post, e.2 ≤ v) ∧
      acc.2 < v := by
  induction c generalizing acc with
  | nil => obtain ⟨e, he, _⟩ := h; simp at he
  | cons x c ih =>
    rw [extrChain_gt_cons]
    by_cases hx : acc.2 < x.2
    · rw [if_pos hx]
      by_cases hr : ∃ e ∈ c, x.2 < e.2
      · obtain ⟨k, v, pre, post, he, hc, hpre, hpost, hv⟩ := ih x hr
        refine ⟨k, v, x :: pre, post, he, by rw [hc]; rfl, ?_, hpost, by omega⟩
        intro e hm
        rcases List.mem_cons.mp hm with h1 | h1
        · rw [h1]; exact hv
        · exact hpre e h1
      · have hall : ∀ e ∈ c, e.2 ≤ x.2 := by
          intro e hm
          by_contra hlt
          exact hr ⟨e, hm, by omega⟩
        refine ⟨x.1, x.2, [], c, extrChain_gt_keep x c hall, rfl, ?_, hall, hx⟩
        intro e hm; simp at hm
    · rw [if_neg hx]
      obtain ⟨e, hm, hlt⟩ := h
      have hr : ∃ e ∈ c, acc.2 < e.2 := by
        rcases List.mem_cons.mp hm with h1 | h1
        · rw [h1] at hlt; exact absurd hlt hx
        · exact ⟨e, h1, hlt⟩
      obtain ⟨k, v, pre, post, he, hc, hpre, hpost, hv⟩ := ih acc hr
      refine ⟨k, v, x :: pre, post, he, by rw [hc]; rfl, ?_, hpost, hv⟩
      intro e' hm'
      rcases List.mem_cons.mp hm' with h1 | h1
      · rw [h1]; omega
      · exact hpre e' h1

/-! ## One key inserted many times, and the loops of `read` -/

theorem insertAll_replicate (h : K → Nat) (k : K) (m : Nat) :
    insertAll (mk h 1) (List.replicate (m + 1) k) =
      { hasher_ := h, buckets_ := [[(k, (m + 1) % SIZE_MOD)]], size_ := 1 } := by
  induction m with
  | zero =>
    simp [insertAll, insert, inc, mk, index, bucket, incChain, Nat.mod_one, SIZE_MOD]
  | succ m ih =>
    rw [List.replicate_succ', insertAll_append, ih]
    simp only [insert, inc, index, bucket, incChain, List.length_singleton, Nat.mod_one,
      List.getD_cons_zero, if_true, List.set_cons_zero]
    congr 3
    simp only [Prod.mk.injEq, true_and]
    unfold SIZE_MOD
    omega

theorem print_eq_entries (t : hashmap K) : print t = entries t := by
  have inner : ∀ (os : List (K × Nat)) (b : Chain K),
      b.foldl (fun os e => os ++ [(e.1, e.2)]) os = os ++ b := by
    intro os b
    induction b generalizing os with
    | nil => simp
    | cons e b ih => simp [ih]
  have outer : ∀ (os : List (K × Nat)) (bs : List (Chain K)),
      bs.foldl (fun os b => b.foldl (fun os e => os ++ [(e.1, e.2)]) os) os
        = os ++ bs.flatten := by
    intro os bs
    induction bs generalizing os with
    | nil => simp
    | cons b bs ih =>
      rw [List.foldl_cons, inner, ih, List.flatten_cons, List.append_assoc]
  simpa [print, entries] using outer [] t.buckets_

theorem readLoop_diverges (key : K) (count : Nat) (hc : UNSIGNED_MOD ≤ count) (fuel : Nat) :
    ∀ (i : Nat) (t : hashmap K), i < UNSIGNED_MOD → readLoop key count fuel i t = none := by
  induction fuel with
  | zero => intro i t _; rfl
  | succ fuel ih =>
    intro i t hi
    rw [readLoop, if_pos (by omega)]
    exact ih _ _ (Nat.mod_lt _ (by unfold UNSIGNED_MOD; norm_num))

/-! ## Repeated inserts of one key into a table without that key -/

theorem hashmap_ext (a b : hashmap K) (h1 : a.hasher_ = b.hasher_)
    (h2 : a.buckets_ = b.buckets_) (h3 : a.size_ = b.size_) : a = b := by
  cases a; cases b
  simp only at h1 h2 h3
  subst h1 h2 h3
  rfl

theorem insert_of_not_has (t : hashmap K) (key : K) (h : has t key = false) :
    insert t key = put t key 1 := by
  apply hashmap_ext
  · rw [insert_hasher]; rfl
  · rw [insert_buckets, insChain_of_not_has key _ (by rw [← has_eq]; exact h)]; rfl
  · rw [insert_size, h]; rfl

theorem index_put (t : hashmap K) (key j : K) (c : Nat) : index (put t key c) j = index t j := by
  simp [index, put]

theorem bucket_put (t : hashmap K) (key : K) (c i : Nat) (h : 0 < t.buckets_.length) :
    bucket (put t key c) i =
      if i = index t key then (key, c) :: bucket t i else bucket t i := by
  unfold bucket put
  simp only
  rw [getD_set _ _ _ _ (index_lt t key h)]
  by_cases hi : i = index t key
  · simp [hi, bucket]
  · simp [hi]

theorem has_put (t : hashmap K) (key j : K) (c : Nat) (h : 0 < t.buckets_.length) :
    has (put t key c) j = (decide (j = key) || has t j) := by
  rw [has_eq, has_eq, index_put, bucket_put t key c _ h]
  by_cases hi : index t j = index t key
  · rw [if_pos hi, chainHas_cons]
    by_cases hj : j = key
    · simp [hj]
    · have hj' : ¬ key = j := fun e => hj e.symm
      simp [hj, hj']
  · have hj : ¬ j = key := fun e => hi (by rw [e])
    simp [hi, hj]

theorem insert_put (t : hashmap K) (key : K) (c : Nat) (h : 0 < t.buckets_.length)
    (hc : c + 1 < SIZE_MOD) : insert (put t key c) key = put t key (c + 1) := by
  have hlen : (put t key c).buckets_.length = t.buckets_.length := by simp [put]
  have hb : bucket (put t key c) (index t key) = (key, c) :: bucket t (index t key) := by
    rw [bucket_put t key c _ h, if_pos rfl]
  have hh : has (put t key c) key = true := by rw [has_put t key key c h]; simp
  apply hashmap_ext
  · rw [insert_hasher]; rfl
  · rw [insert_buckets, index_put, hb]
    have hi : insChain key ((key, c) :: bucket t (index t key))
        = (key, c + 1) :: bucket t (index t key) := by
      simp [insChain, chainHas_cons, incChain, Nat.mod_eq_of_lt hc]
    rw [hi]
    simp only [put]
    rw [set_set_same]
  · rw [insert_size, hh]; rfl

theorem iterate_insert_fresh (t : hashmap K) (key : K) (c : Nat) (h : 0 < t.buckets_.length)
    (hk : has t key = false) (hc : c + 1 < SIZE_MOD) :
    (fun u => insert u key)^[c + 1] t = put t key (c + 1) := by
  induction c with
  | zero => simpa using insert_of_not_has t key hk
  | succ c ih =>
    rw [Function.iterate_succ_apply', ih (by omega)]
    exact insert_put t key (c + 1) h hc

theorem readLoop_terminates (key : K) (count : Nat) (hc : count < UNSIGNED_MOD) (fuel : Nat) :
    ∀ (i : Nat) (t : hashmap K), i ≤ count → count - i < fuel →
      readLoop key count fuel i t = some ((fun u => insert u key)^[count - i] t) := by
  induction fuel with
  | zero => intro i t _ hf; omega
  | succ fuel ih =>
    intro i t hi hf
    rw [readLoop]
    by_cases hlt : i < count
    · rw [if_pos hlt, Nat.mod_eq_of_lt (by omega), ih (i + 1) _ (by omega) (by omega)]
      have e : count - i = (count - (i + 1)) + 1 := by omega
      rw [e, Function.iterate_succ_apply]
    · rw [if_neg hlt]
      have e : count - i = 0 := by omega
      rw [e]
      rfl

theorem put_length (t : hashmap K) (key : K) (c : Nat) :
    (put t key c).buckets_.length = t.buckets_.length := by
  simp [put]

theorem readRecords_eq_putAll (fuel : Nat) (recs : List (K × Nat)) :
    ∀ (t : hashmap K), 0 < t.buckets_.length → (recs.map Prod.fst).Nodup →
      (∀ e ∈ recs, has t e.1 = false) →
      (∀ e ∈ recs, 1 ≤ e.2 ∧ e.2 < UNSIGNED_MOD ∧ e.2 < fuel) →
      readRecords fuel recs t = some (putAll t recs) := by
  induction recs with
  | nil => intro t _ _ _ _; rfl
  | cons e recs ih =>
    intro t hpos hnd hfresh hcnt
    obtain ⟨k, c⟩ := e
    simp only [List.map_cons, List.nodup_cons] at hnd
    obtain ⟨h1, h2, h3⟩ := hcnt (k, c) (List.mem_cons_self _ _)
    simp only at h1 h2 h3
    have hk := hfresh (k, c) (List.mem_cons_self _ _)
    simp only at hk
    have hsz : c < SIZE_MOD := by
      have : UNSIGNED_MOD ≤ SIZE_MOD := by unfold UNSIGNED_MOD SIZE_MOD; norm_num
      omega
    rw [readRecords, readLoop_terminates k c h2 fuel 0 t (Nat.zero_le _) (by omega)]
    simp only [Nat.sub_zero]
    obtain ⟨c', rfl⟩ : ∃ c', c = c' + 1 := ⟨c - 1, by omega⟩
    rw [iterate_insert_fresh t k c' hpos hk hsz]
    rw [ih (put t k (c' + 1)) (by rw [put_length]; exact hpos) hnd.2]
    · rfl
    · intro e he
      rw [has_put t k e.1 (c' + 1) hpos, hfresh e (List.mem_cons_of_mem _ he)]
      have hne : ¬ e.1 = k := fun h => hnd.1 (h ▸ List.mem_map_of_mem Prod.fst he)
      simp [hne]
    · intro e he
      exact hcnt e (List.mem_cons_of_mem _ he)

/-! ## What `read` makes of the records that `print` writes -/

theorem putAll_hasher (recs : List (K × Nat)) :
    ∀ t : hashmap K, (putAll t recs).hasher_ = t.hasher_ := by
  induction recs with
  | nil => intro t; rfl
  | cons e recs ih => intro t; rw [putAll, List.foldl_cons, ← putAll, ih]; rfl

theorem putAll_length (recs : List (K × Nat)) :
    ∀ t : hashmap K, (putAll t recs).buckets_.length = t.buckets_.length := by
  induction recs with
  | nil => intro t; rfl
  | cons e recs ih => intro t; rw [putAll, List.foldl_cons, ← putAll, ih, put_length]

theorem putAll_size (recs : List (K × Nat)) :
    ∀ t : hashmap K, (putAll t recs).size_ = t.size_ + recs.length := by
  induction recs with
  | nil => intro t; rfl
  | cons e recs ih =>
    intro t
    rw [putAll, List.foldl_cons, ← putAll, ih]
    simp only [put, List.length_cons]
    omega

theorem bucket_putAll (recs : List (K × Nat)) (i : Nat) :
    ∀ t : hashmap K, 0 < t.buckets_.length →
      bucket (putAll t recs) i
        = (recs.filter (fun e => decide (index t e.1 = i))).reverse ++ bucket t i := by
  induction recs with
  | nil => intro t _; rfl
  | cons e recs ih =>
    intro t hpos
    rw [putAll, List.foldl_cons, ← putAll, ih _ (by rw [put_length]; exact hpos)]
    simp only [index_put]
    rw [bucket_put t e.1 e.2 i hpos]
    by_cases hi : index t e.1 = i
    · rw [List.filter_cons_of_pos (by simpa using hi), if_pos hi.symm]
      simp
    · rw [List.filter_cons_of_neg (by simpa using hi), if_neg (fun h => hi h.symm)]

theorem filter_flatten_placed (f : K → Nat) (l : List (Chain K)) :
    ∀ (off i : Nat), (∀ j, ∀ e ∈ l.getD j [], f e.1 = off + j) →
      l.flatten.filter (fun e => decide (f e.1 = off + i)) = l.getD i [] := by
  induction l with
  | nil => intro off i _; rfl
  | cons c cs ih =>
    intro off i hp
    have hc : ∀ e ∈ c, f e.1 = off := fun e he => by simpa using hp 0 e (by simpa using he)
    have hcs : ∀ j, ∀ e ∈ cs.getD j [], f e.1 = (off + 1) + j := fun j e he => by
      have := hp (j + 1) e (by simpa using he)
      omega
    rw [List.flatten_cons, List.filter_append]
    cases i with
    | zero =>
      have h1 : c.filter (fun e => decide (f e.1 = off + 0)) = c := by
        rw [List.filter_eq_self]
        intro e he
        simpa using hc e he
      have h2 : cs.flatten.filter (fun e => decide (f e.1 = off + 0)) = [] := by
        rw [List.filter_eq_nil_iff]
        intro e he
        obtain ⟨j, hj⟩ := (mem_flatten_iff_getD cs e).mp he
        have := hcs j e hj
        simp only [decide_eq_true_eq]
        omega
      rw [h1, h2]
      simp
    | succ i =>
      have h1 : c.filter (fun e => decide (f e.1 = off + (i + 1))) = [] := by
        rw [List.filter_eq_nil_iff]
        intro e he
        have := hc e he
        simp only [decide_eq_true_eq]
        omega
      have h2 := ih (off + 1) i hcs
      have e3 : off + (i + 1) = off + 1 + i := by omega
      rw [h1, e3, h2]
      simp

theorem nodup_flatten_placed (f : K → Nat) (l : List (Chain K)) :
    ∀ (off : Nat), (∀ j, ∀ e ∈ l.getD j [], f e.1 = off + j) →
      (∀ j, ((l.getD j []).map Prod.fst).Nodup) → (l.flatten.map Prod.fst).Nodup := by
  induction l with
  | nil => intro off _ _; simp
  | cons c cs ih =>
    intro off hp hn
    have hc : ∀ e ∈ c, f e.1 = off := fun e he => by simpa using hp 0 e (by simpa using he)
    have hcs : ∀ j, ∀ e ∈ cs.getD j [], f e.1 = (off + 1) + j := fun j e he => by
      have := hp (j + 1) e (by simpa using he)
      omega
    rw [List.flatten_cons, List.map_append, List.nodup_append]
    refine ⟨by simpa using hn 0, ih (off + 1) hcs (fun j => by simpa using hn (j + 1)), ?_⟩
    intro k hk1 hk2
    obtain ⟨e1, he1, rfl⟩ := List.mem_map.mp hk1
    obtain ⟨e2, he2, hk⟩ := List.mem_map.mp hk2
    obtain ⟨j, hj⟩ := (mem_flatten_iff_getD cs e2).mp he2
    have h1 := hc e1 he1
    have h2 := hcs j e2 hj
    rw [hk] at h2
    omega

theorem entries_keys_nodup (t : hashmap K) (ht : Inv t) :
    ((entries t).map Prod.fst).Nodup :=
  nodup_flatten_placed (index t) t.buckets_ 0
    (fun j e he => by simpa using ht.placed j e he) ht.nodup

theorem filter_entries (t : hashmap K) (ht : Inv t) (i : Nat) :
    (entries t).filter (fun e => decide (index t e.1 = i)) = bucket t i := by
  have h := filter_flatten_placed (index t) t.buckets_ 0 i
    (fun j e he => by simpa using ht.placed j e he)
  rw [Nat.zero_add] at h
  exact h

theorem ext_getD (l1 l2 : List (Chain K)) (hl : l1.length = l2.length)
    (h : ∀ i, l1.getD i [] = l2.getD i []) : l1 = l2 := by
  apply List.ext_getElem hl
  intro i h1 h2
  have := h i
  simpa [List.getD_eq_getElem?_getD, List.getElem?_eq_getElem h1,
    List.getElem?_eq_getElem h2] using this

theorem clear_clear (t : hashmap K) : clear (clear t) = clear t := by
  simp [clear]

theorem read_entries (t : hashmap K) (ht : Inv t) (fuel : Nat)
    (hcnt : ∀ e ∈ entries t, 1 ≤ e.2 ∧ e.2 < UNSIGNED_MOD ∧ e.2 < fuel) :
    read fuel (entries t) t = some (reversed t) := by
  have hpos : 0 < (clear t).buckets_.length := by rw [clear_length]; exact ht.pos
  rw [read, readRecords_eq_putAll fuel (entries t) (clear t) hpos (entries_keys_nodup t ht)
    (fun e _ => has_clear t e.1) hcnt]
  congr 1
  apply hashmap_ext
  · rw [putAll_hasher]; rfl
  · apply ext_getD
    · rw [putAll_length, clear_length]
      simp [reversed]
    · intro i
      have hb := bucket_putAll (entries t) i (clear t) hpos
      simp only [index_clear, bucket_clear, List.append_nil] at hb
      rw [filter_entries t ht i] at hb
      simp only [bucket] at hb
      rw [hb]
      simp only [reversed, List.getD_eq_getElem?_getD, List.getElem?_map]
      cases t.buckets_[i]? <;> rfl
  · rw [putAll_size]
    simp [clear, reversed, ht.size_eq]

theorem is_permutation_reverse (c : Chain K) :
    is_permutation c.reverse c = some true ∧ is_permutation c c.reverse = some true := by
  constructor
  · unfold is_permutation
    rw [if_neg (by simp)]
    simp [List.reverse_perm]
  · unfold is_permutation
    rw [if_neg (by simp)]
    have : List.take c.length c.reverse = c.reverse := by
      rw [List.take_of_length_le (by simp)]
    rw [this]
    simp [(List.reverse_perm c).symm]

theorem eqLoop_map_reverse (bs : List (Chain K)) :
    eqLoop (bs.map List.reverse) bs = some true ∧
    eqLoop bs (bs.map List.reverse) = some true := by
  induction bs with
  | nil => exact ⟨rfl, rfl⟩
  | cons c cs ih =>
    simp only [List.map_cons, eqLoop, (is_permutation_reverse c).1,
      (is_permutation_reverse c).2]
    exact ih

theorem lookup_reversed (t : hashmap K) (ht : Inv t) (k : K) :
    lookup (reversed t) k = lookup t k := by
  have hb : bucket (reversed t) (index t k) = (bucket t (index t k)).reverse := by
    simp only [reversed, bucket, List.getD_eq_getElem?_getD, List.getElem?_map]
    cases t.buckets_[index t k]? <;> rfl
  have hi : index (reversed t) k = index t k := by simp [index, reversed]
  unfold lookup
  rw [hi, hb]
  cases hf : findCount k (bucket t (index t k)) with
  | some v =>
    exact findCount_of_mem k v _ (by
      rw [List.map_reverse]; exact List.nodup_reverse.mpr (ht.nodup _))
      (List.mem_reverse.mpr (findCount_mem k _ v hf))
  | none =>
    have h1 := findCount_isSome k (bucket t (index t k))
    have h2 := findCount_isSome k (bucket t (index t k)).reverse
    rw [hf] at h1
    have h3 : chainHas k (bucket t (index t k)).reverse = false := by
      simp only [chainHas, List.any_reverse]
      exact h1.symm
    rw [h3] at h2
    cases hr : findCount k (bucket t (index t k)).reverse with
    | none => rfl
    | some w => rw [hr] at h2; simp at h2

/-- The round trip on the tables whose counts the loop of `read` can count: for a
reachable table whose counts are all at least one and below `2 ^ 32`, `read` of the
records written by `print`, after `clear`, returns, and it returns the table with every
chain reversed; that table has the same number of buckets and the same `size()`, compares
equal to the first under `operator==` in both orders, and agrees with it on every count. -/
theorem read_print_small_counts (t : hashmap K) (ht : Reachable t)
    (hcnt : ∀ e ∈ entries t, 1 ≤ e.2 ∧ e.2 < UNSIGNED_MOD) :
    (∀ fuel, UNSIGNED_MOD ≤ fuel → read fuel (print t) (clear t) = some (reversed t)) ∧
    (reversed t).buckets_.length = t.buckets_.length ∧
    operator_eq (reversed t) t = some true ∧ operator_eq t (reversed t) = some true ∧
    size (reversed t) = size t ∧ ∀ k, count_of (reversed t) k = count_of t k := by
  have hinv := Inv_of_reachable t ht
  refine ⟨?_, by simp [reversed], ?_, ?_, rfl, ?_⟩
  · intro fuel hf
    have h := read_entries t hinv fuel (fun e he => by
      obtain ⟨h1, h2⟩ := hcnt e he
      exact ⟨h1, h2, by omega⟩)
    rw [print_eq_entries, read, clear_clear]
    exact h
  · simp [operator_eq, reversed, (eqLoop_map_reverse t.buckets_).1]
  · simp [operator_eq, reversed, (eqLoop_map_reverse t.buckets_).2]
  · intro k
    rw [count_of_eq, count_of_eq, lookup_reversed t hinv k]

/-! ## The scan of `min` -/

theorem min_eq [Inhabited K] (t : hashmap K) :
    min t =
      if t.size_ = 0 then .error .logic_error
      else .ok (extrChain (fun lhs rhs => decide (lhs < rhs)) (default, SIZE_MOD - 1)
        (entries t)).1 := by
  rw [min, extr_eq]
  simp

theorem extrChain_lt_cons (acc e : K × Nat) (c : Chain K) :
    extrChain (fun lhs rhs => decide (lhs < rhs)) acc (e :: c) =
      extrChain (fun lhs rhs => decide (lhs < rhs)) (if e.2 < acc.2 then e else acc) c := by
  simp [extrChain]

theorem extrChain_lt_keep (acc : K × Nat) (c : Chain K) (h : ∀ e ∈ c, acc.2 ≤ e.2) :
    extrChain (fun lhs rhs => decide (lhs < rhs)) acc c = acc := by
  induction c with
  | nil => rfl
  | cons e c ih =>
    rw [extrChain_lt_cons, if_neg (Nat.not_lt.mpr (h e (List.mem_cons_self _ _)))]
    exact ih (fun x hx => h x (List.mem_cons_of_mem _ hx))

theorem extrChain_lt_first (acc : K × Nat) (c : Chain K) (h : ∃ e ∈ c, e.2 < acc.2) :
    ∃ k v pre post,
      extrChain (fun lhs rhs => decide (lhs < rhs)) acc c = (k, v) ∧
      c = pre ++ (k, v) :: post ∧ (∀ e ∈ pre, v < e.2) ∧ (∀ e ∈ post, v ≤ e.2) ∧
      v < acc.2 := by
  induction c generalizing acc with
  | nil => obtain ⟨e, he, _⟩ := h; simp at he
  | cons x c ih =>
    rw [extrChain_lt_cons]
    by_cases hx : x.2 < acc.2
    · rw [if_pos hx]
      by_cases hr : ∃ e ∈ c, e.2 < x.2
      · obtain ⟨k, v, pre, post, he, hc, hpre, hpost, hv⟩ := ih x hr
        refine ⟨k, v, x :: pre, post, he, by rw [hc]; rfl, ?_, hpost, by omega⟩
        intro e hm
        rcases List.mem_cons.mp hm with h1 | h1
        · rw [h1]; exact hv
        · exact hpre e h1
      · have hall : ∀ e ∈ c, x.2 ≤ e.2 := by
          intro e hm
          by_contra hlt
          exact hr ⟨e, hm, by omega⟩
        refine ⟨x.1, x.2, [], c, extrChain_lt_keep x c hall, rfl, ?_, hall, hx⟩
        intro e hm; simp at hm
    · rw [if_neg hx]
      obtain ⟨e, hm, hlt⟩ := h
      have hr : ∃ e ∈ c, e.2 < acc.2 := by
        rcases List.mem_cons.mp hm with h1 | h1
        · rw [h1] at hlt; exact absurd hlt hx
        · exact ⟨e, h1, hlt⟩
      obtain ⟨k, v, pre, post, he, hc, hpre, hpost, hv⟩ := ih acc hr
      refine ⟨k, v, x :: pre, post, he, by rw [hc]; rfl, ?_, hpost, hv⟩
      intro e' hm'
      rcases List.mem_cons.mp hm' with h1 | h1
      · rw [h1]; omega
      · exact hpre e' h1

/-- The scan of `min()` below the sentinel: on every reachable table that holds an entry
of count less than `(size_t)-1`, `min()` returns the key `k` of the first entry, in the
scan of the buckets by ascending index and of each chain from its head, whose count `v`
is the lowest; `k` is present, `v` is its count, and no key present has a smaller
count. -/
theorem min_first_lowest [Inhabited K] (t : hashmap K) (ht : Reachable t)
    (hlow : ∃ e ∈ entries t, e.2 < SIZE_MOD - 1) :
    ∃ k v pre post,
      min t = .ok k ∧ entries t = pre ++ (k, v) :: post ∧
      (∀ e ∈ pre, v < e.2) ∧ (∀ e ∈ post, v ≤ e.2) ∧
      has t k = true ∧ count_of t k = .ok v ∧
      (∀ j c, count_of t j = .ok c → v ≤ c) := by
  have hinv := Inv_of_reachable t ht
  obtain ⟨k, v, pre, post, he, hc, hpre, hpost, _⟩ :=
    extrChain_lt_first ((default : K), SIZE_MOD - 1) (entries t) hlow
  have hmem : (k, v) ∈ entries t := by rw [hc]; simp
  have hs : ¬ t.size_ = 0 := by
    rw [hinv.size_eq]
    exact fun h0 => by rw [List.length_eq_zero.mp h0] at hmem; simp at hmem
  refine ⟨k, v, pre, post, ?_, hc, hpre, hpost, ?_, ?_, ?_⟩
  · rw [min_eq, if_neg hs, he]
  · exact (has_iff_mem_entries t k hinv).mpr ⟨v, hmem⟩
  · rw [count_of_eq, lookup_of_mem_entries t k v hinv hmem]
  · intro j c hj
    rw [count_of_eq] at hj
    cases hl : lookup t j with
    | none => rw [hl] at hj; cases hj
    | some w =>
      rw [hl] at hj
      injection hj with hj
      subst hj
      have hm := mem_entries_of_lookup t j w hl
      rw [hc] at hm
      rcases List.mem_append.mp hm with h1 | h1
      · exact Nat.le_of_lt (hpre _ h1)
      · rcases List.mem_cons.mp h1 with h2 | h2
        · exact Nat.le_of_eq (Prod.mk.inj h2).2.symm
        · exact hpost _ h2

/-! ## Tables with one or two occupied buckets -/

theorem flatten_single (l : List (Chain K)) :
    ∀ i, (∀ j, j ≠ i → l.getD j [] = []) → l.flatten = l.getD i [] := by
  induction l with
  | nil => intro i _; rfl
  | cons x xs ih =>
    intro i h
    cases i with
    | zero =>
      have hxs : xs.flatten = [] := by
        have h1 := ih xs.length (fun j _ => by simpa using h (j + 1) (Nat.succ_ne_zero j))
        rw [h1, List.getD_eq_getElem?_getD, List.getElem?_eq_none (Nat.le_refl _)]
        rfl
      simp [hxs]
    | succ i =>
      have hx : x = [] := by simpa using h 0 (Nat.succ_ne_zero i).symm
      have h1 := ih i (fun j hj => by
        simpa using h (j + 1) (fun e => hj (Nat.succ.inj e)))
      simp [hx, h1]

theorem flatten_pair (l : List (Chain K)) :
    ∀ i j, i < j → (∀ k, k ≠ i → k ≠ j → l.getD k [] = []) →
      l.flatten = l.getD i [] ++ l.getD j [] := by
  induction l with
  | nil => intro i j _ _; rfl
  | cons x xs ih =>
    intro i j hij h
    cases j with
    | zero => omega
    | succ j =>
      cases i with
      | zero =>
        have h1 := flatten_single xs j (fun k hk => by
          simpa using h (k + 1) (Nat.succ_ne_zero k) (fun e => hk (Nat.succ.inj e)))
        simp [h1]
      | succ i =>
        have hx : x = [] := by
          simpa using h 0 (Nat.succ_ne_zero i).symm (Nat.succ_ne_zero j).symm
        have h1 := ih i j (by omega) (fun k hk1 hk2 => by
          simpa using h (k + 1) (fun e => hk1 (Nat.succ.inj e))
            (fun e => hk2 (Nat.succ.inj e)))
        simp [hx, h1]

theorem insert_twice_fresh (t : hashmap K) (key : K) (h : 0 < t.buckets_.length)
    (hk : has t key = false) : insert (insert t key) key = put t key 2 := by
  have hc : 1 + 1 < SIZE_MOD := by unfold SIZE_MOD; norm_num
  rw [insert_of_not_has t key hk]
  exact insert_put t key 1 h hc

theorem insertAll_two_twice (h : K → Nat) (n : Nat) (hn : 0 < n) (a b : K) (hab : a ≠ b) :
    insertAll (mk h n) [a, a, b, b] = put (put (mk h n) a 2) b 2 := by
  have hpos : 0 < (mk h n).buckets_.length := by simpa [mk] using hn
  have hb : has (put (mk h n) a 2) b = false := by
    rw [has_put _ _ _ _ hpos, has_mk]
    have : ¬ b = a := fun e => hab e.symm
    simp [this]
  have e : insertAll (mk h n) [a, a, b, b]
      = insert (insert (insert (insert (mk h n) a) a) b) b := rfl
  rw [e, insert_twice_fresh (mk h n) a hpos (has_mk h n a),
    insert_twice_fresh _ b (by rw [put_length]; exact hpos) hb]

theorem entries_two_twice (h : K → Nat) (n : Nat) (hn : 0 < n) (a b : K) (hab : a ≠ b) :
    entries (insertAll (mk h n) [a, a, b, b]) =
      if h a % n < h b % n then [(a, 2), (b, 2)] else [(b, 2), (a, 2)] := by
  have hpos : 0 < (mk h n).buckets_.length := by simpa [mk] using hn
  have hia : index (mk h n) a = h a % n := by simp [index, mk]
  have hib : index (put (mk h n) a 2) b = h b % n := by simp [index, put, mk]
  have hbk : ∀ i, bucket (put (put (mk h n) a 2) b 2) i =
      if i = h b % n then (b, 2) :: (if i = h a % n then [(a, 2)] else [])
      else (if i = h a % n then [(a, 2)] else []) := by
    intro i
    rw [bucket_put _ _ _ _ (by rw [put_length]; exact hpos), bucket_put _ _ _ _ hpos,
      bucket_mk, hia, hib]
  rw [insertAll_two_twice h n hn a b hab, entries]
  have hg : ∀ i, (put (put (mk h n) a 2) b 2).buckets_.getD i []
      = bucket (put (put (mk h n) a 2) b 2) i := fun i => rfl
  rcases Nat.lt_trichotomy (h a % n) (h b % n) with hlt | heq | hgt
  · rw [if_pos hlt, flatten_pair _ (h a % n) (h b % n) hlt (fun k hk1 hk2 => by
      rw [hg, hbk, if_neg hk2, if_neg hk1]), hg, hg, hbk, hbk]
    have hne : ¬ h a % n = h b % n := by omega
    have hne' : ¬ h b % n = h a % n := by omega
    simp [hne, hne']
  · rw [if_neg (by omega), flatten_single _ (h b % n) (fun k hk => by
      rw [hg, hbk, if_neg hk, if_neg (by rw [heq]; exact hk)]), hg, hbk]
    simp [heq]
  · rw [if_neg (by omega), flatten_pair _ (h b % n) (h a % n) hgt (fun k hk1 hk2 => by
      rw [hg, hbk, if_neg hk1, if_neg hk2]), hg, hg, hbk, hbk]
    have hne : ¬ h a % n = h b % n := by omega
    have hne' : ¬ h b % n = h a % n := by omega
    simp [hne, hne']

/-! ## Comparing two tables -/

theorem insertAll_hasher (keys : List K) :
    ∀ t : hashmap K, (insertAll t keys).hasher_ = t.hasher_ := by
  induction keys with
  | nil => intro t; rfl
  | cons k ks ih => intro t; rw [insertAll, List.foldl_cons, ← insertAll, ih, insert_hasher]

theorem insertAll_length (keys : List K) :
    ∀ t : hashmap K, (insertAll t keys).buckets_.length = t.buckets_.length := by
  induction keys with
  | nil => intro t; rfl
  | cons k ks ih => intro t; rw [insertAll, List.foldl_cons, ← insertAll, ih, insert_length]

theorem index_insertAll_mk (h : K → Nat) (n : Nat) (keys : List K) (k : K) :
    index (insertAll (mk h n) keys) k = h k % n := by
  simp [index, insertAll_hasher, insertAll_length, mk]

theorem mem_bucket_insertAll (h : K → Nat) (n : Nat) (hn : 0 < n) (keys : List K) (i : Nat)
    (k : K) (v : Nat) :
    (k, v) ∈ bucket (insertAll (mk h n) keys) i ↔
      h k % n = i ∧ 0 < keys.count k ∧ v = keys.count k % SIZE_MOD := by
  have hinv := Inv_insertAll (mk h n) keys (Inv_mk h n hn)
  have hl := lookup_insertAll h n hn keys k
  constructor
  · intro hm
    have hp := hinv.placed i (k, v) hm
    simp only at hp
    rw [index_insertAll_mk] at hp
    have hlk := lookup_of_mem_entries _ k v hinv ((mem_entries_iff _ _).mpr ⟨i, hm⟩)
    rw [hlk] at hl
    by_cases hc : keys.count k = 0
    · rw [if_pos hc] at hl; cases hl
    · rw [if_neg hc] at hl
      exact ⟨hp, Nat.pos_of_ne_zero hc, Option.some.inj hl⟩
  · rintro ⟨hi, hc, hv⟩
    rw [if_neg (by omega), ← hv] at hl
    have hm := findCount_mem k _ v hl
    rw [index_insertAll_mk, hi] at hm
    exact hm

theorem is_permutation_of_perm (l r : Chain K) (hp : l.Perm r) :
    is_permutation l r = some true := by
  unfold is_permutation
  rw [if_neg (by rw [hp.length_eq]; exact Nat.lt_irrefl _),
    List.take_of_length_le (by rw [hp.length_eq])]
  simp [hp]

theorem eqLoop_of_perm (l1 : List (Chain K)) :
    ∀ l2 : List (Chain K), (∀ i, (l1.getD i []).Perm (l2.getD i [])) →
      eqLoop l1 l2 = some true := by
  induction l1 with
  | nil => intro l2 _; rfl
  | cons c cs ih =>
    intro l2 hp
    cases l2 with
    | nil => rfl
    | cons d ds =>
      have h0 : is_permutation c d = some true :=
        is_permutation_of_perm c d (by simpa using hp 0)
      simp only [eqLoop, h0]
      exact ih ds (fun i => by simpa using hp (i + 1))

theorem bucket_insertAll_perm (h : K → Nat) (n : Nat) (hn : 0 < n) (s1 s2 : List K)
    (hp : s1.Perm s2) (i : Nat) :
    (bucket (insertAll (mk h n) s1) i).Perm (bucket (insertAll (mk h n) s2) i) := by
  have hn1 := (Inv_insertAll (mk h n) s1 (Inv_mk h n hn)).nodup i
  have hn2 := (Inv_insertAll (mk h n) s2 (Inv_mk h n hn)).nodup i
  rw [List.perm_ext_iff_of_nodup (List.Nodup.of_map _ hn1) (List.Nodup.of_map _ hn2)]
  rintro ⟨k, v⟩
  rw [mem_bucket_insertAll h n hn s1, mem_bucket_insertAll h n hn s2, hp.count_eq k]

theorem operator_eq_insertAll_perm (h : K → Nat) (n : Nat) (hn : 0 < n) (s1 s2 : List K)
    (hp : s1.Perm s2) :
    operator_eq (insertAll (mk h n) s1) (insertAll (mk h n) s2) = some true := by
  unfold operator_eq
  rw [if_neg (by simp [insertAll_length])]
  exact eqLoop_of_perm _ _ (bucket_insertAll_perm h n hn s1 s2 hp)

/-! ## What `read` returns -/

theorem insertAll_cons (t : hashmap K) (k : K) (ks : List K) :
    insertAll t (k :: ks) = insertAll (insert t k) ks := rfl

theorem insertAll_concat (t : hashmap K) (ks ks' : List K) :
    insertAll t (ks ++ ks') = insertAll (insertAll t ks) ks' := by
  simp [insertAll, List.foldl_append]

theorem insertAll_replicate_eq_iterate (key : K) (c : Nat) :
    ∀ t : hashmap K, insertAll t (List.replicate c key) = (fun u => insert u key)^[c] t := by
  induction c with
  | zero => intro t; rfl
  | succ c ih =>
    intro t
    rw [List.replicate_succ, insertAll_cons, ih, Function.iterate_succ_apply]

theorem clear_eq_mk (t : hashmap K) : clear t = mk t.hasher_ t.buckets_.length := rfl

theorem readLoop_some (key : K) (count : Nat) (fuel : Nat) :
    ∀ (i : Nat) (t t' : hashmap K), readLoop key count fuel i t = some t' →
      ∃ m, t' = insertAll t (List.replicate m key) := by
  induction fuel with
  | zero => intro i t t' h; simp [readLoop] at h
  | succ fuel ih =>
    intro i t t' h
    rw [readLoop] at h
    by_cases hlt : i < count
    · rw [if_pos hlt] at h
      obtain ⟨m, hm⟩ := ih _ _ _ h
      exact ⟨m + 1, by rw [List.replicate_succ, insertAll_cons]; exact hm⟩
    · rw [if_neg hlt] at h
      exact ⟨0, (Option.some.inj h).symm⟩

theorem readRecords_some (fuel : Nat) (recs : List (K × Nat)) :
    ∀ (t t' : hashmap K), readRecords fuel recs t = some t' →
      ∃ keys, t' = insertAll t keys := by
  induction recs with
  | nil => intro t t' h; exact ⟨[], (Option.some.inj h).symm⟩
  | cons e recs ih =>
    intro t t' h
    obtain ⟨k, c⟩ := e
    rw [readRecords] at h
    cases hl : readLoop k c fuel 0 t with
    | none => rw [hl] at h; cases h
    | some u =>
      rw [hl] at h
      obtain ⟨m, hm⟩ := readLoop_some k c fuel 0 t u hl
      obtain ⟨keys, hk⟩ := ih u t' h
      exact ⟨List.replicate m k ++ keys, by rw [insertAll_concat, ← hm]; exact hk⟩

theorem read_some (fuel : Nat) (recs : List (K × Nat)) (t t' : hashmap K)
    (h : read fuel recs t = some t') : ∃ keys, t' = insertAll (clear t) keys :=
  readRecords_some fuel recs (clear t) t' h

/-- What `read` does with counts below `2 ^ 32`: for every sequence of records whose
counts are all less than `2 ^ 32` and every starting table, `read` returns, and it returns
the table obtained from the constructed table of the same hasher and bucket count by
`c1` inserts of `k1`, then `c2` inserts of `k2`, and so on; nothing of what the table held
before the call is left. -/
theorem read_small_counts (recs : List (K × Nat)) (hc : ∀ e ∈ recs, e.2 < UNSIGNED_MOD)
    (fuel : Nat) (hf : UNSIGNED_MOD ≤ fuel) (t : hashmap K) :
    read fuel recs t =
      some (insertAll (clear t) (recs.flatMap (fun e => List.replicate e.2 e.1))) ∧
    clear t = mk t.hasher_ t.buckets_.length := by
  refine ⟨?_, rfl⟩
  unfold read
  generalize clear t = u
  induction recs generalizing u with
  | nil => rfl
  | cons e recs ih =>
    obtain ⟨k, c⟩ := e
    have hlt : c < UNSIGNED_MOD := hc (k, c) (List.mem_cons_self _ _)
    rw [readRecords, readLoop_terminates k c hlt fuel 0 u (Nat.zero_le _) (by omega)]
    simp only [Nat.sub_zero, List.flatMap_cons]
    rw [ih (fun e he => hc e (List.mem_cons_of_mem _ he)), insertAll_concat,
      insertAll_replicate_eq_iterate]

/-! ## Tables reached with loads -/

theorem ReachableFrom_hasher_length (h : K → Nat) (n : Nat) (t : hashmap K)
    (hr : ReachableFrom h n t) : t.hasher_ = h ∧ t.buckets_.length = n := by
  induction hr with
  | fresh => simp [mk]
  | ins t key _ ih => rw [insert_hasher, insert_length]; exact ih
  | del t key _ ih => rw [erase_hasher, erase_length]; exact ih
  | clr t _ ih => rw [clear_length]; exact ⟨ih.1, ih.2⟩
  | load t t' fuel recs _ hread ih =>
    obtain ⟨keys, rfl⟩ := read_some fuel recs t t' hread
    rw [insertAll_hasher, insertAll_length, clear_length]
    exact ⟨ih.1, ih.2⟩

theorem Inv_of_reachableFrom (h : K → Nat) (n : Nat) (hn : 0 < n) (t : hashmap K)
    (hr : ReachableFrom h n t) : Inv t := by
  induction hr with
  | fresh => exact Inv_mk h n hn
  | ins t key _ ih => exact Inv_insert t key ih
  | del t key _ ih => exact Inv_erase t key ih
  | clr t _ ih => exact Inv_clear t ih.pos
  | load t t' fuel recs _ hread ih =>
    obtain ⟨keys, rfl⟩ := read_some fuel recs t t' hread
    exact Inv_insertAll _ keys (Inv_clear t ih.pos)

theorem reachableFrom_run (h : K → Nat) (n : Nat) (ops : List (Op K)) :
    ReachableFrom h n (run (mk h n) ops) := by
  induction ops using List.reverseRecOn with
  | nil => exact ReachableFrom.fresh
  | append_singleton ops op ih =>
    rw [run_append]
    cases op with
    | ins k => exact ReachableFrom.ins _ k ih
    | del k => exact ReachableFrom.del _ k ih
    | clr => exact ReachableFrom.clr _ ih

/-! ## Tables without a bucket -/

theorem index_checked_of_pos (t : hashmap K) (key : K) (h : 0 < t.buckets_.length) :
    index_checked t key = some (index t key) := by
  unfold index_checked
  rw [if_neg (by omega)]
  rfl

theorem has_checked_of_pos (t : hashmap K) (key : K) (h : 0 < t.buckets_.length) :
    has_checked t key = some (has t key) := by
  unfold has_checked
  rw [index_checked_of_pos t key h]
  rfl

theorem has_checked_of_no_bucket (t : hashmap K) (key : K) (h : t.buckets_.length = 0) :
    has_checked t key = none := by
  unfold has_checked index_checked
  rw [if_pos h]

/-! ## Claims -/

/-- C3: for every bucket count of at least one, every hasher and every finite sequence of
keys, after the keys are inserted one by one into a freshly constructed table, `size()` is
the number of distinct keys of the sequence. -/
theorem size_insertAll_eq_distinct (h : K → Nat) (n : Nat) (hn : 0 < n) (keys : List K) :
    size (insertAll (mk h n) keys) = keys.dedup.length := by
  rw [size, size_insertAll_card h n hn, List.card_toFinset]

/-- Witness of C3: three buckets and the sequence 1, 4, 1, 7, 4. -/
theorem size_insertAll_eq_distinct_witness :
    0 < 3 ∧ size (insertAll (mk (fun k : Nat => k) 3) [1, 4, 1, 7, 4])
      = ([1, 4, 1, 7, 4] : List Nat).dedup.length :=
  ⟨by decide, size_insertAll_eq_distinct (fun k : Nat => k) 3 (by decide) [1, 4, 1, 7, 4]⟩

/-- C4, as stated, fails: after `2 ^ 64` inserts of the key `0` into a fresh table of one
bucket the key occurs `2 ^ 64` times in the sequence, yet `operator[]` returns `0` and not
`2 ^ 64`, the `size_t` count having wrapped around. -/
theorem count_of_insertAll_counterexample :
    0 < 1 ∧ 1 ≤ (List.replicate 18446744073709551616 (0 : Nat)).count 0 ∧
    count_of (insertAll (mk (fun k : Nat => k) 1) (List.replicate 18446744073709551616 0)) 0
      = .ok 0 ∧
    count_of (insertAll (mk (fun k : Nat => k) 1) (List.replicate 18446744073709551616 0)) 0
      ≠ .ok ((List.replicate 18446744073709551616 (0 : Nat)).count 0) := by
  have e : (18446744073709551616 : Nat) % SIZE_MOD = 0 := by
    unfold SIZE_MOD; norm_num
  have hv : count_of (insertAll (mk (fun k : Nat => k) 1)
      (List.replicate 18446744073709551616 0)) 0 = .ok 0 := by
    rw [count_of_eq, lookup_insertAll _ 1 Nat.one_pos, List.count_replicate_self,
      if_neg (by norm_num), e]
  refine ⟨Nat.one_pos, ?_, hv, ?_⟩
  · rw [List.count_replicate_self]; norm_num
  · rw [hv, List.count_replicate_self]
    intro hc
    injection hc with hc
    exact absurd hc (by norm_num)

/-- C4, amended: for every finite sequence of inserts into a freshly constructed table of
at least one bucket and every key `k` that occurs `n >= 1` times in the sequence,
`operator[]` returns `n` modulo `2 ^ 64`, which is `n` itself whenever `n < 2 ^ 64`,
whatever other keys are inserted in between and wherever they are placed. -/
theorem count_of_insertAll (h : K → Nat) (n : Nat) (hn : 0 < n) (keys : List K) (k : K)
    (hk : 1 ≤ keys.count k) :
    count_of (insertAll (mk h n) keys) k = .ok (keys.count k % SIZE_MOD) ∧
    (keys.count k < SIZE_MOD → count_of (insertAll (mk h n) keys) k = .ok (keys.count k)) := by
  have e : count_of (insertAll (mk h n) keys) k = .ok (keys.count k % SIZE_MOD) := by
    rw [count_of_eq, lookup_insertAll h n hn, if_neg (by omega)]
  exact ⟨e, fun hlt => by rw [e, Nat.mod_eq_of_lt hlt]⟩

/-- Witness of C4 amended: two buckets, the keys 1 and 3 collide, 1 occurs twice. -/
theorem count_of_insertAll_witness :
    0 < 2 ∧ 1 ≤ ([1, 3, 1] : List Nat).count 1 ∧
    (count_of (insertAll (mk (fun k : Nat => k) 2) [1, 3, 1]) 1
        = .ok (([1, 3, 1] : List Nat).count 1 % SIZE_MOD) ∧
      (([1, 3, 1] : List Nat).count 1 < SIZE_MOD →
        count_of (insertAll (mk (fun k : Nat => k) 2) [1, 3, 1]) 1
          = .ok (([1, 3, 1] : List Nat).count 1))) :=
  ⟨by decide, by decide,
    count_of_insertAll (fun k : Nat => k) 2 (by decide) [1, 3, 1] 1 (by decide)⟩

/-- C5: on every reachable table and for every key `k`, `operator[]` throws the
key-not-found error exactly when `has(k)` is false; when `has(k)` is true it returns
the count stored in the one entry of key `k`; a key without an entry never yields a
count, in particular not zero. -/
theorem count_of_fails_iff_not_has (t : hashmap K) (ht : Reachable t) (k : K) :
    (count_of t k = .error .invalid_argument ↔ has t k = false) ∧
    (has t k = true →
      ∃ v, count_of t k = .ok v ∧ (k, v) ∈ entries t ∧ ∀ w, (k, w) ∈ entries t → w = v) ∧
    ((∀ w, (k, w) ∉ entries t) → ∀ v, count_of t k ≠ .ok v) := by
  have hinv := Inv_of_reachable t ht
  have hs := lookup_isSome t k
  refine ⟨?_, ?_, ?_⟩
  · rw [count_of_eq]
    cases hl : lookup t k with
    | none => rw [hl] at hs; simp [← hs]
    | some v => rw [hl] at hs; simp [← hs]
  · intro hk
    rw [hk] at hs
    cases hl : lookup t k with
    | none => rw [hl] at hs; simp at hs
    | some v =>
      refine ⟨v, by rw [count_of_eq, hl], mem_entries_of_lookup t k v hl, ?_⟩
      intro w hw
      have := lookup_of_mem_entries t k w hinv hw
      rw [hl] at this
      exact (Option.some.inj this).symm
  · intro hno v
    rw [count_of_eq]
    cases hl : lookup t k with
    | none => simp
    | some w => exact absurd (mem_entries_of_lookup t k w hl) (hno w)

/-- Witness of C5: the table of two buckets after the inserts 1, 3, 1, asked for 3. -/
theorem count_of_fails_iff_not_has_witness :
    Reachable (run (mk (fun k : Nat => k) 2) [.ins 1, .ins 3, .ins 1]) ∧
    (count_of (run (mk (fun k : Nat => k) 2) [.ins 1, .ins 3, .ins 1]) 3
        = .error .invalid_argument ↔
      has (run (mk (fun k : Nat => k) 2) [.ins 1, .ins 3, .ins 1]) 3 = false) :=
  ⟨⟨_, 2, _, by decide, rfl⟩,
    (count_of_fails_iff_not_has _ ⟨_, 2, [.ins 1, .ins 3, .ins 1], by decide, rfl⟩ 3).1⟩

/-- C6: in every table obtained from a freshly constructed table of at least one bucket
by inserts, erases and clears, `has(k)` is true exactly when some bucket holds an entry of
key `k`, and exactly when `k` was inserted after the last `erase(k)` and the last
`clear()`. -/
theorem has_iff_entry_iff_live (h : K → Nat) (n : Nat) (hn : 0 < n) (ops : List (Op K))
    (k : K) :
    (has (run (mk h n) ops) k = true ↔ ∃ v, (k, v) ∈ entries (run (mk h n) ops)) ∧
    (has (run (mk h n) ops) k = true ↔ live k ops = true) := by
  refine ⟨has_iff_mem_entries _ k (Inv_run _ ops (Inv_mk h n hn)), ?_⟩
  rw [has_run h n hn]

/-- Witness of C6: three buckets, the key 4 inserted, erased and inserted again. -/
theorem has_iff_entry_iff_live_witness :
    0 < 3 ∧
    (has (run (mk (fun k : Nat => k) 3) [.ins 4, .ins 1, .del 4, .ins 4]) 4 = true ↔
      live 4 [Op.ins 4, .ins 1, .del 4, .ins 4] = true) :=
  ⟨by decide,
    (has_iff_entry_iff_live (fun k : Nat => k) 3 (by decide)
      [.ins 4, .ins 1, .del 4, .ins 4] 4).2⟩

/-- C7: on every reachable table and for every key `k` with `has(k)` true, `erase(k)`
removes the one entry of key `k` and nothing else: afterwards `has(k)` is false,
`operator[]` throws for `k`, `size()` is one less, every chain holds its other entries
unchanged and in the same order, and one entry fewer is stored. -/
theorem erase_present (t : hashmap K) (ht : Reachable t) (k : K) (hk : has t k = true) :
    has (erase t k) k = false ∧
    count_of (erase t k) k = .error .invalid_argument ∧
    size (erase t k) + 1 = size t ∧
    (∀ i, bucket (erase t k) i = (bucket t i).filter (fun e => decide (e.1 ≠ k))) ∧
    entries (erase t k) = (entries t).filter (fun e => decide (e.1 ≠ k)) ∧
    (entries (erase t k)).length + 1 = (entries t).length := by
  have hinv := Inv_of_reachable t ht
  have hinv' := Inv_erase t k hinv
  have hh := has_erase_self t k hinv
  have hsz : (erase t k).size_ + 1 = t.size_ := by
    have hp := size_pos_of_has t k hinv hk
    rw [erase_size, hk, if_pos rfl, decSize, if_neg (by omega)]
    omega
  refine ⟨hh, ?_, hsz, ?_, entries_erase t k hinv, ?_⟩
  · have hs := lookup_isSome (erase t k) k
    rw [hh] at hs
    rw [count_of_eq]
    cases hl : lookup (erase t k) k with
    | none => rfl
    | some v => rw [hl] at hs; simp at hs
  · intro i
    have hb : ∀ u : hashmap K, bucket u i = (u.buckets_[i]?).getD [] := fun u => by
      simp [bucket, List.getD_eq_getElem?_getD]
    rw [hb, hb, erase_buckets_eq_map t k hinv, List.getElem?_map]
    cases t.buckets_[i]? <;> rfl
  · rw [← hinv'.size_eq, ← hinv.size_eq]
    exact hsz

/-- Witness of C7: one bucket holding 3, 2, 1 from the head; the interior entry, of
count two, is erased. -/
theorem erase_present_witness :
    Reachable (run (mk (fun k : Nat => k) 1) [.ins 1, .ins 2, .ins 2, .ins 3]) ∧
    has (run (mk (fun k : Nat => k) 1) [.ins 1, .ins 2, .ins 2, .ins 3]) 2 = true ∧
    size (erase (run (mk (fun k : Nat => k) 1) [.ins 1, .ins 2, .ins 2, .ins 3]) 2) + 1
      = size (run (mk (fun k : Nat => k) 1) [.ins 1, .ins 2, .ins 2, .ins 3]) :=
  ⟨⟨_, 1, _, by decide, rfl⟩, by decide,
    (erase_present _ ⟨_, 1, [.ins 1, .ins 2, .ins 2, .ins 3], by decide, rfl⟩ 2
      (by decide)).2.2.1⟩

/-- C8: on every reachable table, `erase(k)` of a key with `has(k)` false returns the
table unchanged, and `erase(k)` applied twice gives the table that `erase(k)` applied
once gives. -/
theorem erase_absent_and_idempotent (t : hashmap K) (ht : Reachable t) (k : K) :
    (has t k = false → erase t k = t) ∧ erase (erase t k) k = erase t k :=
  ⟨erase_of_not_has t k,
    erase_of_not_has _ k (has_erase_self t k (Inv_of_reachable t ht))⟩

/-- Witness of C8: the table of two buckets after the inserts 1, 3, 1; the key 5 is
absent and the key 3 is erased twice. -/
theorem erase_absent_and_idempotent_witness :
    Reachable (run (mk (fun k : Nat => k) 2) [.ins 1, .ins 3, .ins 1]) ∧
    erase (erase (run (mk (fun k : Nat => k) 2) [.ins 1, .ins 3, .ins 1]) 3) 3
      = erase (run (mk (fun k : Nat => k) 2) [.ins 1, .ins 3, .ins 1]) 3 :=
  ⟨⟨_, 2, _, by decide, rfl⟩,
    (erase_absent_and_idempotent _ ⟨_, 2, [.ins 1, .ins 3, .ins 1], by decide, rfl⟩ 3).2⟩

/-- C9: on every table `min()` and `max()` throw the empty-container error exactly when
`size()` is zero, and on every reachable table with at least one entry both return a
key. -/
theorem min_max_fail_iff_size_zero [Inhabited K] (t : hashmap K) :
    (min t = .error .logic_error ↔ size t = 0) ∧
    (max t = .error .logic_error ↔ size t = 0) ∧
    (Reachable t → entries t ≠ [] → (∃ k, min t = .ok k) ∧ (∃ k, max t = .ok k)) := by
  refine ⟨?_, ?_, ?_⟩
  · rw [min, extr_eq, size]
    by_cases h : t.size_ = 0 <;> simp [h]
  · rw [max, extr_eq, size]
    by_cases h : t.size_ = 0 <;> simp [h]
  · intro hr hne
    have hs : ¬ t.size_ = 0 := by
      rw [(Inv_of_reachable t hr).size_eq]
      exact fun h0 => hne (List.length_eq_zero.mp h0)
    rw [min, max, extr_eq, extr_eq, if_neg hs, if_neg hs]
    exact ⟨⟨_, rfl⟩, ⟨_, rfl⟩⟩

/-- Witness of C9: the table of two buckets after the inserts 1, 3, 1 has an entry, and
`min()` and `max()` return keys. -/
theorem min_max_fail_iff_size_zero_witness :
    Reachable (run (mk (fun k : Nat => k) 2) [.ins 1, .ins 3, .ins 1]) ∧
    entries (run (mk (fun k : Nat => k) 2) [.ins 1, .ins 3, .ins 1]) ≠ [] ∧
    ((∃ k, min (run (mk (fun k : Nat => k) 2) [.ins 1, .ins 3, .ins 1]) = .ok k) ∧
      (∃ k, max (run (mk (fun k : Nat => k) 2) [.ins 1, .ins 3, .ins 1]) = .ok k)) :=
  ⟨⟨_, 2, _, by decide, rfl⟩, by decide,
    (min_max_fail_iff_size_zero _).2.2 ⟨_, 2, [.ins 1, .ins 3, .ins 1], by decide, rfl⟩
      (by decide)⟩

/-- C10, as stated, fails: the table of one bucket in which the key `"a"` was inserted
`2 ^ 64` times is reachable and holds one entry, whose count has wrapped to zero; `max()`
returns the default key `""`, which the table does not hold. -/
theorem max_counterexample :
    Reachable (insertAll (mk (fun s : String => s.length) 1)
      (List.replicate 18446744073709551616 "a")) ∧
    entries (insertAll (mk (fun s : String => s.length) 1)
      (List.replicate 18446744073709551616 "a")) = [("a", 0)] ∧
    max (insertAll (mk (fun s : String => s.length) 1)
      (List.replicate 18446744073709551616 "a")) = .ok "" ∧
    has (insertAll (mk (fun s : String => s.length) 1)
      (List.replicate 18446744073709551616 "a")) "" = false := by
  have e : insertAll (mk (fun s : String => s.length) 1)
      (List.replicate 18446744073709551616 "a")
      = { hasher_ := fun s : String => s.length, buckets_ := [[("a", 0)]], size_ := 1 } := by
    have h := insertAll_replicate (fun s : String => s.length) "a" 18446744073709551615
    have hm : (18446744073709551615 + 1) % SIZE_MOD = 0 := by unfold SIZE_MOD; norm_num
    rw [hm] at h
    exact h
  refine ⟨reachable_insertAll _ 1 Nat.one_pos _, ?_, ?_, ?_⟩
  · rw [e]; rfl
  · rw [e]; rfl
  · rw [e]; decide

/-- C10, amended: on every reachable table that holds an entry of non-zero count, `max()`
returns the key `k` of the first entry, in the scan of the buckets by ascending index and
of each chain from its head, whose count `v` is the highest: every entry before it has a
smaller count, none after it has a larger one; `k` is present, `v` is its count, and no
key present has a larger count. -/
theorem max_first_highest [Inhabited K] (t : hashmap K) (ht : Reachable t)
    (hpos : ∃ e ∈ entries t, 0 < e.2) :
    ∃ k v pre post,
      max t = .ok k ∧ entries t = pre ++ (k, v) :: post ∧
      (∀ e ∈ pre, e.2 < v) ∧ (∀ e ∈ post, e.2 ≤ v) ∧
      has t k = true ∧ count_of t k = .ok v ∧
      (∀ j c, count_of t j = .ok c → c ≤ v) := by
  have hinv := Inv_of_reachable t ht
  obtain ⟨k, v, pre, post, he, hc, hpre, hpost, _⟩ :=
    extrChain_gt_first ((default : K), 0) (entries t) hpos
  have hmem : (k, v) ∈ entries t := by rw [hc]; simp
  have hs : ¬ t.size_ = 0 := by
    rw [hinv.size_eq]
    exact fun h0 => by rw [List.length_eq_zero.mp h0] at hmem; simp at hmem
  refine ⟨k, v, pre, post, ?_, hc, hpre, hpost, ?_, ?_, ?_⟩
  · rw [max_eq, if_neg hs, he]
  · exact (has_iff_mem_entries t k hinv).mpr ⟨v, hmem⟩
  · rw [count_of_eq, lookup_of_mem_entries t k v hinv hmem]
  · intro j c hj
    rw [count_of_eq] at hj
    cases hl : lookup t j with
    | none => rw [hl] at hj; cases hj
    | some w =>
      rw [hl] at hj
      injection hj with hj
      subst hj
      have hm := mem_entries_of_lookup t j w hl
      rw [hc] at hm
      rcases List.mem_append.mp hm with h1 | h1
      · exact Nat.le_of_lt (hpre _ h1)
      · rcases List.mem_cons.mp h1 with h2 | h2
        · exact Nat.le_of_eq (Prod.mk.inj h2).2
        · exact hpost _ h2

/-- Witness of C10 amended: one bucket, the keys 1 and 3 both of count two, 3 nearer the
head of the chain. -/
theorem max_first_highest_witness :
    Reachable (run (mk (fun k : Nat => k) 1) [.ins 1, .ins 3, .ins 1, .ins 3, .ins 2]) ∧
    (∃ e ∈ entries (run (mk (fun k : Nat => k) 1) [.ins 1, .ins 3, .ins 1, .ins 3, .ins 2]),
      0 < e.2) ∧
    ∃ k v pre post,
      max (run (mk (fun k : Nat => k) 1) [.ins 1, .ins 3, .ins 1, .ins 3, .ins 2]) = .ok k ∧
      entries (run (mk (fun k : Nat => k) 1) [.ins 1, .ins 3, .ins 1, .ins 3, .ins 2])
        = pre ++ (k, v) :: post ∧
      (∀ e ∈ pre, e.2 < v) ∧ (∀ e ∈ post, e.2 ≤ v) ∧
      has (run (mk (fun k : Nat => k) 1) [.ins 1, .ins 3, .ins 1, .ins 3, .ins 2]) k = true ∧
      count_of (run (mk (fun k : Nat => k) 1) [.ins 1, .ins 3, .ins 1, .ins 3, .ins 2]) k
        = .ok v ∧
      (∀ j c,
        count_of (run (mk (fun k : Nat => k) 1) [.ins 1, .ins 3, .ins 1, .ins 3, .ins 2]) j
          = .ok c → c ≤ v) :=
  ⟨⟨_, 1, _, by decide, rfl⟩, ⟨(2, 1), by decide, by decide⟩,
    max_first_highest _ ⟨_, 1, [.ins 1, .ins 3, .ins 1, .ins 3, .ins 2], by decide, rfl⟩
      ⟨(2, 1), by decide, by decide⟩⟩

/-- C1, the code at the failing input: a fresh table of one bucket compared with the
same table after one insert.  `operator==` returns `true` although the two chains of
bucket 0 are not permutations of each other, and with the operands exchanged the call
of `std::is_permutation` reads past the end of the shorter chain. -/
theorem operator_eq_empty_lhs :
    (mk (fun k : Nat => k) 1).buckets_.length
      = (insert (mk (fun k : Nat => k) 1) 5).buckets_.length ∧
    operator_eq (mk (fun k : Nat => k) 1) (insert (mk (fun k : Nat => k) 1) 5) = some true ∧
    ¬ List.Perm (bucket (mk (fun k : Nat => k) 1) 0)
        (bucket (insert (mk (fun k : Nat => k) 1) 5) 0) ∧
    operator_eq (insert (mk (fun k : Nat => k) 1) 5) (mk (fun k : Nat => k) 1) = none := by
  refine ⟨by decide, by decide, by decide, by decide⟩

/-- C2, the code at the failing input: the key 7 inserted `2 ^ 32` times into a fresh
table of one bucket.  `print` writes the one record `7 == 4294967296`, and `read` of that
record never returns: the inner loop counts with an `unsigned`, which stays below the
`size_t` bound for ever. -/
theorem read_print_diverges :
    Reachable (insertAll (mk (fun k : Nat => k) 1) (List.replicate 4294967296 7)) ∧
    print (insertAll (mk (fun k : Nat => k) 1) (List.replicate 4294967296 7))
      = [(7, 4294967296)] ∧
    ∀ fuel,
      read fuel (print (insertAll (mk (fun k : Nat => k) 1) (List.replicate 4294967296 7)))
        (insertAll (mk (fun k : Nat => k) 1) (List.replicate 4294967296 7)) = none := by
  have e : insertAll (mk (fun k : Nat => k) 1) (List.replicate 4294967296 7)
      = { hasher_ := fun k : Nat => k, buckets_ := [[(7, 4294967296)]], size_ := 1 } := by
    have h := insertAll_replicate (fun k : Nat => k) 7 4294967295
    have hm : (4294967295 + 1) % SIZE_MOD = 4294967296 := by unfold SIZE_MOD; norm_num
    rw [hm] at h
    exact h
  have hp : print (insertAll (mk (fun k : Nat => k) 1) (List.replicate 4294967296 7))
      = [(7, 4294967296)] := by
    rw [print_eq_entries, e]; rfl
  refine ⟨reachable_insertAll _ 1 Nat.one_pos _, hp, ?_⟩
  intro fuel
  rw [hp, read, readRecords,
    readLoop_diverges 7 4294967296 (by unfold UNSIGNED_MOD; norm_num) fuel 0 _
      (by unfold UNSIGNED_MOD; norm_num)]

/-- C11, the code at the failing input: the key `"a"` inserted `2 ^ 64 - 1` times into a
fresh table of one bucket.  The table is reachable and holds the one entry
`("a", 2 ^ 64 - 1)`, a count reached without any overflow; `min()` does not throw, and it
returns the default key `""`, which the table does not hold, since no count is strictly
below the sentinel `(size_t)-1` the scan starts from. -/
theorem min_sentinel_count :
    Reachable (insertAll (mk (fun s : String => s.length) 1)
      (List.replicate 18446744073709551615 "a")) ∧
    entries (insertAll (mk (fun s : String => s.length) 1)
      (List.replicate 18446744073709551615 "a")) = [("a", 18446744073709551615)] ∧
    min (insertAll (mk (fun s : String => s.length) 1)
      (List.replicate 18446744073709551615 "a")) = .ok "" ∧
    has (insertAll (mk (fun s : String => s.length) 1)
      (List.replicate 18446744073709551615 "a")) "" = false ∧
    has (insertAll (mk (fun s : String => s.length) 1)
      (List.replicate 18446744073709551615 "a")) "a" = true := by
  have e : insertAll (mk (fun s : String => s.length) 1)
      (List.replicate 18446744073709551615 "a")
      = { hasher_ := fun s : String => s.length,
          buckets_ := [[("a", 18446744073709551615)]], size_ := 1 } := by
    have h := insertAll_replicate (fun s : String => s.length) "a" 18446744073709551614
    have hm : (18446744073709551614 + 1) % SIZE_MOD = 18446744073709551615 := by
      unfold SIZE_MOD; norm_num
    rw [hm] at h
    exact h
  refine ⟨reachable_insertAll _ 1 Nat.one_pos _, ?_, ?_, ?_, ?_⟩
  · rw [e]; rfl
  · rw [e, min_eq]
    simp [entries, extrChain, SIZE_MOD]
  · rw [e]; decide
  · rw [e]; decide

/-- C12, as stated, fails: with one bucket, or with two buckets and the second key in the
lower one, the table built by inserting the first key twice and then the second key twice
has `min()` equal to the second key. -/
theorem min_tie_counterexample :
    (0 < 1 ∧ (1 : Nat) ≠ 2 ∧
      min (insertAll (mk (fun k : Nat => k) 1) [1, 1, 2, 2]) = .ok 2 ∧
      min (insertAll (mk (fun k : Nat => k) 1) [1, 1, 2, 2]) ≠ .ok 1) ∧
    (0 < 2 ∧ (1 : Nat) ≠ 2 ∧
      min (insertAll (mk (fun k : Nat => k) 2) [1, 1, 2, 2]) = .ok 2 ∧
      min (insertAll (mk (fun k : Nat => k) 2) [1, 1, 2, 2]) ≠ .ok 1) := by
  have e1 : min (insertAll (mk (fun k : Nat => k) 1) [1, 1, 2, 2]) = .ok 2 := rfl
  have e2 : min (insertAll (mk (fun k : Nat => k) 2) [1, 1, 2, 2]) = .ok 2 := rfl
  refine ⟨⟨by decide, by decide, e1, ?_⟩, ⟨by decide, by decide, e2, ?_⟩⟩
  · rw [e1]; intro hc; injection hc with hc; exact absurd hc (by decide)
  · rw [e2]; intro hc; injection hc with hc; exact absurd hc (by decide)

/-- C12, amended: the tie is broken by the order of the scan, not by the order of
insertion.  For every bucket count of at least one, every hasher and every two distinct
keys `a` and `b`, the table built from empty by inserting `a` twice and then `b` twice
has `min()` equal to `a` when the bucket of `a` has the lower index, and equal to `b`
when both keys share a bucket or the bucket of `b` has the lower index. -/
theorem min_tie_scan_order [Inhabited K] (h : K → Nat) (n : Nat) (hn : 0 < n) (a b : K)
    (hab : a ≠ b) :
    min (insertAll (mk h n) [a, a, b, b]) = .ok (if h a % n < h b % n then a else b) := by
  have hs : (insertAll (mk h n) [a, a, b, b]).size_ = 2 := by
    rw [insertAll_two_twice h n hn a b hab]
    simp [put, mk]
  rw [min_eq, hs, if_neg (by norm_num), entries_two_twice h n hn a b hab]
  by_cases hlt : h a % n < h b % n
  · simp [hlt, extrChain, SIZE_MOD]
  · simp [hlt, extrChain, SIZE_MOD]

/-- Witness of C12 amended: three buckets, `a = 1` in bucket 1 and `b = 5` in bucket 2. -/
theorem min_tie_scan_order_witness :
    0 < 3 ∧ (1 : Nat) ≠ 5 ∧
    min (insertAll (mk (fun k : Nat => k) 3) [1, 1, 5, 5])
      = .ok (if (fun k : Nat => k) 1 % 3 < (fun k : Nat => k) 5 % 3 then 1 else 5) :=
  ⟨by decide, by decide, min_tie_scan_order (fun k : Nat => k) 3 (by decide) 1 5 (by decide)⟩

/-- C13: for every bucket count of at least one, every hasher and every two key sequences
that are permutations of each other, the tables built by inserting the one and the other
into fresh tables of that bucket count compare equal under `operator==` in both
argument orders, and `operator!=` returns false on them. -/
theorem operator_eq_insertion_order (h : K → Nat) (n : Nat) (hn : 0 < n) (s1 s2 : List K)
    (hp : s1.Perm s2) :
    operator_eq (insertAll (mk h n) s1) (insertAll (mk h n) s2) = some true ∧
    operator_eq (insertAll (mk h n) s2) (insertAll (mk h n) s1) = some true ∧
    operator_ne (insertAll (mk h n) s1) (insertAll (mk h n) s2) = some false ∧
    operator_ne (insertAll (mk h n) s2) (insertAll (mk h n) s1) = some false := by
  have h1 := operator_eq_insertAll_perm h n hn s1 s2 hp
  have h2 := operator_eq_insertAll_perm h n hn s2 s1 hp.symm
  refine ⟨h1, h2, ?_, ?_⟩
  · rw [operator_ne, h1]; rfl
  · rw [operator_ne, h2]; rfl

/-- Witness of C13: two buckets, the sequences 1, 3, 2, 1 and 3, 1, 1, 2. -/
theorem operator_eq_insertion_order_witness :
    0 < 2 ∧ ([1, 3, 2, 1] : List Nat).Perm [3, 1, 1, 2] ∧
    (operator_eq (insertAll (mk (fun k : Nat => k) 2) [1, 3, 2, 1])
        (insertAll (mk (fun k : Nat => k) 2) [3, 1, 1, 2]) = some true ∧
      operator_eq (insertAll (mk (fun k : Nat => k) 2) [3, 1, 1, 2])
        (insertAll (mk (fun k : Nat => k) 2) [1, 3, 2, 1]) = some true ∧
      operator_ne (insertAll (mk (fun k : Nat => k) 2) [1, 3, 2, 1])
        (insertAll (mk (fun k : Nat => k) 2) [3, 1, 1, 2]) = some false ∧
      operator_ne (insertAll (mk (fun k : Nat => k) 2) [3, 1, 1, 2])
        (insertAll (mk (fun k : Nat => k) 2) [1, 3, 2, 1]) = some false) :=
  ⟨by decide, by decide,
    operator_eq_insertion_order (fun k : Nat => k) 2 (by decide) [1, 3, 2, 1] [3, 1, 1, 2]
      (by decide)⟩

/-- C14: for all tables whose bucket counts differ, `operator==` returns false and
`operator!=` returns true, whatever the two tables hold. -/
theorem operator_eq_bucket_counts_differ (a b : hashmap K)
    (h : a.buckets_.length ≠ b.buckets_.length) :
    operator_eq a b = some false ∧ operator_ne a b = some true := by
  have e : operator_eq a b = some false := by
    unfold operator_eq
    rw [if_pos h]
  exact ⟨e, by rw [operator_ne, e]; rfl⟩

/-- Witness of C14: the same keys with the same counts in tables of two and of three
buckets. -/
theorem operator_eq_bucket_counts_differ_witness :
    (insertAll (mk (fun k : Nat => k) 2) [1, 1, 4]).buckets_.length
      ≠ (insertAll (mk (fun k : Nat => k) 3) [1, 1, 4]).buckets_.length ∧
    (operator_eq (insertAll (mk (fun k : Nat => k) 2) [1, 1, 4])
        (insertAll (mk (fun k : Nat => k) 3) [1, 1, 4]) = some false ∧
      operator_ne (insertAll (mk (fun k : Nat => k) 2) [1, 1, 4])
        (insertAll (mk (fun k : Nat => k) 3) [1, 1, 4]) = some true) :=
  ⟨by decide, operator_eq_bucket_counts_differ _ _ (by decide)⟩

/-- C15, as stated, fails: on the table constructed with no bucket, `clear()` leaves a
table that is `empty()`, of `size()` zero and with no bucket still, and there `has(1)` does
not return false: `index` divides by the bucket count zero, which is undefined. -/
theorem clear_no_bucket_counterexample :
    empty (clear (mk (fun k : Nat => k) 0)) = true ∧
    size (clear (mk (fun k : Nat => k) 0)) = 0 ∧
    (clear (mk (fun k : Nat => k) 0)).buckets_.length = 0 ∧
    index_checked (clear (mk (fun k : Nat => k) 0)) 1 = none ∧
    has_checked (clear (mk (fun k : Nat => k) 0)) 1 = none ∧
    has_checked (clear (mk (fun k : Nat => k) 0)) 1 ≠ some false := by
  have e : has_checked (clear (mk (fun k : Nat => k) 0)) 1 = none :=
    has_checked_of_no_bucket _ 1 rfl
  refine ⟨rfl, rfl, rfl, rfl, e, ?_⟩
  rw [e]
  intro hc
  cases hc

/-- C15, amended: for every table, after `clear()` the table is `empty()`, `size()` is
zero, every bucket is an empty chain, and the number of buckets is what it was before
the call; and when the table has at least one bucket, `has(k)` returns false for every
key.  With no bucket `has(k)` is undefined, as before the call. -/
theorem clear_empties (t : hashmap K) :
    empty (clear t) = true ∧ size (clear t) = 0 ∧
    (∀ c ∈ (clear t).buckets_, c = []) ∧
    (clear t).buckets_.length = t.buckets_.length ∧
    (0 < t.buckets_.length →
      ∀ k, has_checked (clear t) k = some false ∧ has (clear t) k = false) ∧
    (t.buckets_.length = 0 → ∀ k, has_checked (clear t) k = none) := by
  refine ⟨rfl, rfl, ?_, clear_length t, ?_, ?_⟩
  · intro c hc
    simp only [clear, List.mem_replicate] at hc
    exact hc.2
  · intro hpos k
    refine ⟨?_, has_clear t k⟩
    rw [has_checked_of_pos (clear t) k (by rw [clear_length]; exact hpos), has_clear]
  · intro h0 k
    exact has_checked_of_no_bucket (clear t) k (by rw [clear_length]; exact h0)

/-- Witness of C15 amended: two buckets, cleared after the inserts 1 and 3, asked for the
key 1. -/
theorem clear_empties_witness :
    0 < (run (mk (fun k : Nat => k) 2) [.ins 1, .ins 3]).buckets_.length ∧
    has_checked (clear (run (mk (fun k : Nat => k) 2) [.ins 1, .ins 3])) 1 = some false ∧
    has (clear (run (mk (fun k : Nat => k) 2) [.ins 1, .ins 3])) 1 = false :=
  ⟨by decide,
    (clear_empties (run (mk (fun k : Nat => k) 2) [.ins 1, .ins 3])).2.2.2.2.1
      (by decide) 1⟩

/-- C16, the code at the failing input: the one record `7 == 4294967296`, whose count
`2 ^ 32` is a value of `size_t`, read into a freshly constructed table of one bucket.
`read` never returns, whatever the number of iterations allowed: the `unsigned` counter
of its inner loop wraps to zero before it reaches the bound. -/
theorem read_large_count_diverges :
    (4294967296 : Nat) < SIZE_MOD ∧ 0 < (mk (fun k : Nat => k) 1).buckets_.length ∧
    ∀ fuel, read fuel [(7, 4294967296)] (mk (fun k : Nat => k) 1) = none := by
  refine ⟨by unfold SIZE_MOD; norm_num, by decide, ?_⟩
  intro fuel
  rw [read, readRecords,
    readLoop_diverges 7 4294967296 (by unfold UNSIGNED_MOD; norm_num) fuel 0 _
      (by unfold UNSIGNED_MOD; norm_num)]

/-- C17: on every reachable table, loads included, `print` writes the entries bucket
after bucket by ascending index and each chain from its head, one record of key and
count per entry; the number of records is `size()`, no key appears in two records, and
the count of each record is the one `operator[]` returns for its key. -/
theorem print_records (h : K → Nat) (n : Nat) (hn : 0 < n) (t : hashmap K)
    (hr : ReachableFrom h n t) :
    print t = t.buckets_.flatten ∧ (print t).length = size t ∧
    ((print t).map Prod.fst).Nodup ∧ (∀ e ∈ print t, count_of t e.1 = .ok e.2) := by
  have hinv := Inv_of_reachableFrom h n hn t hr
  rw [print_eq_entries]
  refine ⟨rfl, hinv.size_eq.symm, entries_keys_nodup t hinv, ?_⟩
  rintro ⟨k, v⟩ he
  rw [count_of_eq, lookup_of_mem_entries t k v hinv he]

/-- Witness of C17: two buckets, after the inserts 1, 3, 1, 2. -/
theorem print_records_witness :
    0 < 2 ∧
    ReachableFrom (fun k : Nat => k) 2
      (run (mk (fun k : Nat => k) 2) [.ins 1, .ins 3, .ins 1, .ins 2]) ∧
    (print (run (mk (fun k : Nat => k) 2) [.ins 1, .ins 3, .ins 1, .ins 2])).length
      = size (run (mk (fun k : Nat => k) 2) [.ins 1, .ins 3, .ins 1, .ins 2]) :=
  ⟨by decide, reachableFrom_run _ 2 _,
    (print_records (fun k : Nat => k) 2 (by decide) _ (reachableFrom_run _ 2 _)).2.1⟩

/-- C18: in every table reached from a freshly constructed table of at least one bucket
by inserts, erases, clears and loads, every entry of the chain at bucket index `i` has a
key whose hash modulo the bucket count is `i`, no key occurs in two entries of the
table, and `size()` is the number of entries summed over the chains. -/
theorem structural_invariant (h : K → Nat) (n : Nat) (hn : 0 < n) (t : hashmap K)
    (hr : ReachableFrom h n t) :
    (∀ i c, t.buckets_[i]? = some c → ∀ e ∈ c, t.hasher_ e.1 % t.buckets_.length = i) ∧
    (t.buckets_.flatten.map Prod.fst).Nodup ∧
    size t = (t.buckets_.map List.length).sum := by
  have hinv := Inv_of_reachableFrom h n hn t hr
  refine ⟨?_, entries_keys_nodup t hinv, ?_⟩
  · intro i c hc e he
    have hb : bucket t i = c := by simp [bucket, List.getD_eq_getElem?_getD, hc]
    exact hinv.placed i e (by rw [hb]; exact he)
  · rw [size, hinv.size_eq, entries, List.length_flatten]

/-- Witness of C18: two buckets, after insert 1, insert 3, erase 1 and a load of the
records `5 == 2` and `4 == 1`. -/
theorem structural_invariant_witness :
    0 < 2 ∧
    ReachableFrom (fun k : Nat => k) 2
      (insertAll (clear (run (mk (fun k : Nat => k) 2) [.ins 1, .ins 3, .del 1]))
        ([(5, 2), (4, 1)].flatMap (fun e => List.replicate e.2 e.1))) ∧
    size (insertAll (clear (run (mk (fun k : Nat => k) 2) [.ins 1, .ins 3, .del 1]))
        ([(5, 2), (4, 1)].flatMap (fun e => List.replicate e.2 e.1)))
      = ((insertAll (clear (run (mk (fun k : Nat => k) 2) [.ins 1, .ins 3, .del 1]))
        ([(5, 2), (4, 1)].flatMap
          (fun e => List.replicate e.2 e.1))).buckets_.map List.length).sum :=
  ⟨by decide,
    ReachableFrom.load (run (mk (fun k : Nat => k) 2) [.ins 1, .ins 3, .del 1]) _
      UNSIGNED_MOD [(5, 2), (4, 1)] (reachableFrom_run _ 2 _)
      (read_small_counts [(5, 2), (4, 1)] (by decide) UNSIGNED_MOD (Nat.le_refl _) _).1,
    (structural_invariant (fun k : Nat => k) 2 (by decide) _
      (ReachableFrom.load (run (mk (fun k : Nat => k) 2) [.ins 1, .ins 3, .del 1]) _
        UNSIGNED_MOD [(5, 2), (4, 1)] (reachableFrom_run _ 2 _)
        (read_small_counts [(5, 2), (4, 1)] (by decide) UNSIGNED_MOD
          (Nat.le_refl _) _).1)).2.2⟩

/-- C19: a table constructed with at least one bucket keeps its number of buckets through
every insert, erase, clear and load; `index(k)` is below that number, which is not zero,
so that the bucket accesses of `has`, `operator<<`, `operator[]` and `erase` are in range;
and in `erase`, once `has(k)` is true, the chain of `k` is not empty and either its head
holds `k` or the loop finds an entry of key `k` before the end of the chain. -/
theorem bounds_safety (h : K → Nat) (n : Nat) (hn : 0 < n) (t : hashmap K)
    (hr : ReachableFrom h n t) (k : K) :
    t.buckets_.length = n ∧
    (insert t k).buckets_.length = n ∧ (erase t k).buckets_.length = n ∧
    (clear t).buckets_.length = n ∧
    (∀ fuel recs t', read fuel recs t = some t' → t'.buckets_.length = n) ∧
    t.buckets_.length ≠ 0 ∧ index t k < t.buckets_.length ∧
    (has t k = true →
      ∃ e rest, bucket t (index t k) = e :: rest ∧
        (e.1 = k ∨ (eraseAfter k rest).isSome = true)) := by
  have hl := (ReachableFrom_hasher_length h n t hr).2
  refine ⟨hl, by rw [insert_length, hl], by rw [erase_length, hl],
    by rw [clear_length, hl], ?_, by omega, index_lt t k (by omega), ?_⟩
  · intro fuel recs t' hread
    exact (ReachableFrom_hasher_length h n t' (ReachableFrom.load t t' fuel recs hr hread)).2
  · intro hk
    rw [has_eq] at hk
    cases hb : bucket t (index t k) with
    | nil => rw [hb] at hk; simp [chainHas] at hk
    | cons e rest =>
      obtain ⟨k', v⟩ := e
      refine ⟨(k', v), rest, rfl, ?_⟩
      rw [hb, chainHas_cons] at hk
      by_cases hk' : k' = k
      · exact Or.inl hk'
      · right
        simp only [hk', decide_False, Bool.false_or] at hk
        rw [eraseAfter_isSome, hk]

/-- Witness of C19: three buckets, after the inserts 1, 4, 7, which share bucket 1, asked
for the key 1 at the tail of its chain. -/
theorem bounds_safety_witness :
    0 < 3 ∧
    ReachableFrom (fun k : Nat => k) 3
      (run (mk (fun k : Nat => k) 3) [.ins 1, .ins 4, .ins 7]) ∧
    index (run (mk (fun k : Nat => k) 3) [.ins 1, .ins 4, .ins 7]) 1
      < (run (mk (fun k : Nat => k) 3) [.ins 1, .ins 4, .ins 7]).buckets_.length :=
  ⟨by decide, reachableFrom_run _ 3 _,
    (bounds_safety (fun k : Nat => k) 3 (by decide) _ (reachableFrom_run _ 3 _)
      1).2.2.2.2.2.2.1⟩

/-- C20: on every table with at least one bucket, reachable or not, and for every two
distinct keys `k` and `j`, in the same bucket or not, neither `operator<<(k)` nor
`erase(k)` changes `has(j)` or what `operator[]` gives for `j`. -/
theorem mutators_frame (t : hashmap K) (ht : 0 < t.buckets_.length) (k j : K)
    (hkj : k ≠ j) :
    has (insert t k) j = has t j ∧ has (erase t k) j = has t j ∧
    count_of (insert t k) j = count_of t j ∧ count_of (erase t k) j = count_of t j := by
  have hjk : j ≠ k := fun e => hkj e.symm
  refine ⟨?_, has_erase_of_ne t k j ht hjk, ?_, ?_⟩
  · rw [has_insert t k j ht]
    simp [hjk]
  · rw [count_of_eq, count_of_eq, lookup_insert t k j ht, if_neg hjk]
  · rw [count_of_eq, count_of_eq, lookup_erase_of_ne t k j ht hjk]

/-- Witness of C20: one bucket holding the keys 1 and 2, so that they collide. -/
theorem mutators_frame_witness :
    0 < (run (mk (fun k : Nat => k) 1) [.ins 1, .ins 2, .ins 1]).buckets_.length ∧
    (2 : Nat) ≠ 1 ∧
    (has (insert (run (mk (fun k : Nat => k) 1) [.ins 1, .ins 2, .ins 1]) 2) 1
        = has (run (mk (fun k : Nat => k) 1) [.ins 1, .ins 2, .ins 1]) 1 ∧
      has (erase (run (mk (fun k : Nat => k) 1) [.ins 1, .ins 2, .ins 1]) 2) 1
        = has (run (mk (fun k : Nat => k) 1) [.ins 1, .ins 2, .ins 1]) 1 ∧
      count_of (insert (run (mk (fun k : Nat => k) 1) [.ins 1, .ins 2, .ins 1]) 2) 1
        = count_of (run (mk (fun k : Nat => k) 1) [.ins 1, .ins 2, .ins 1]) 1 ∧
      count_of (erase (run (mk (fun k : Nat => k) 1) [.ins 1, .ins 2, .ins 1]) 2) 1
        = count_of (run (mk (fun k : Nat => k) 1) [.ins 1, .ins 2, .ins 1]) 1) :=
  ⟨by decide, by decide,
    mutators_frame (run (mk (fun k : Nat => k) 1) [.ins 1, .ins 2, .ins 1]) (by decide) 2 1
      (by decide)⟩

end Hashmap
